import Mathlib

/-!
Verification development for the narrative turn engine of the AI-text-adv
repository (src/game_engine.py, src/main.py, src/libs/prompt_manager.py).

The Python code is shallowly embedded: Python strings become `List Char`
(written `Str`) or Lean `String`; the in-place mutating methods of
`GameEngine` and `PromptManagerRebuild` become pure state-passing
functions over `Session` and `PMState`; the external language-model
client is a stream of `ClientResult`s consumed in call order; the
external `json_repair.repair_json` / `json.loads` pair is an oracle
`World.loadsRepair` (and plain `json.loads` is `World.loads`), since
those libraries are outside the repository.
-/

/-! ## Python string primitives over `List Char` -/

abbrev Str := List Char

/-- Python `s.startswith(pre)`: `pre` is an initial segment of `s`. -/
def pyStarts : Str → Str → Bool
  | [], _ => true
  | _ :: _, [] => false
  | a :: as, b :: bs => a == b && pyStarts as bs

/-- Python `s.endswith(suf)`: `suf` is a final segment of `s`. -/
def pyEnds (suf s : Str) : Bool :=
  pyStarts suf.reverse s.reverse

/-- Python `s.split(sep)` for a one-character separator: splits at every
occurrence, keeping empty pieces. -/
def pySplitChar (sep : Char) : Str → List Str
  | [] => [[]]
  | c :: rest =>
    if c == sep then [] :: pySplitChar sep rest
    else
      match pySplitChar sep rest with
      | [] => [[c]]
      | p :: ps => (c :: p) :: ps

/-- Fuelled scanner for Python `s.replace(pat, rep)` (all occurrences,
scanning left to right).  One unit of fuel is spent per examined
character, so `fuel = s.length` always suffices. -/
def pyReplaceAux (pat rep : Str) : Nat → Str → Str
  | _, [] => []
  | 0, s => s
  | fuel + 1, c :: rest =>
    if pyStarts pat (c :: rest) then
      rep ++ pyReplaceAux pat rep fuel (List.drop (pat.length - 1) rest)
    else
      c :: pyReplaceAux pat rep fuel rest

/-- Python `s.replace(pat, rep)`.  All patterns used by the embedded code
are non-empty; the empty pattern (for which Python interleaves `rep`
between characters) is mapped to the identity and never exercised. -/
def pyReplaceStr (s pat rep : Str) : Str :=
  if pat.isEmpty then s else pyReplaceAux pat rep s.length s

/-- Python string `<` (lexicographic by code point). -/
def lexLt : Str → Str → Bool
  | [], [] => false
  | [], _ :: _ => true
  | _ :: _, [] => false
  | a :: as, b :: bs =>
    if a < b then true else if b < a then false else lexLt as bs

/-- Python `sep.join(parts)`. -/
def pyJoin (sep : String) : List String → String
  | [] => ""
  | [s] => s
  | s :: rest => s ++ sep ++ pyJoin sep rest

/-- Python `s.find(c)` for a one-character needle (`-1` becomes `none`). -/
def pyFindChar (c : Char) : Str → Option Nat
  | [] => none
  | d :: rest =>
    if d == c then some 0 else (pyFindChar c rest).map (· + 1)

/-- Python `s.rfind(c)` for a one-character needle. -/
def pyRFindChar (c : Char) (s : Str) : Option Nat :=
  (pyFindChar c s.reverse).map (fun i => s.length - 1 - i)

/-- Python slice `s[a:b]`. -/
def pySlice (s : Str) (a b : Nat) : Str :=
  (s.take b).drop a

/-- Python `s.isdigit()` restricted to ASCII digits: non-empty and all
digits. -/
def pyIsdigitStr (s : Str) : Bool :=
  !s.isEmpty && s.all Char.isDigit

/-- Python `s.strip()`: remove leading and trailing whitespace. -/
def pyStrip (s : Str) : Str :=
  ((s.dropWhile Char.isWhitespace).reverse.dropWhile Char.isWhitespace).reverse

/-- Truthiness of an optional Python string: `None` and `""` are falsy. -/
def truthyS : Option String → Bool
  | none => false
  | some s => !s.isEmpty

/-- The character `{` (written by code point to keep it out of string
literals). -/
def lbrace : Char := Char.ofNat 123

/-- The character `}`. -/
def rbrace : Char := Char.ofNat 125

/-! ## JSON values

Result type of `json.loads` / `json_repair.repair_json`, which are
external libraries: the embedding consults oracles returning `JValue`
(`none` models a raised `json.JSONDecodeError`/`ValueError`). -/

inductive JValue where
  | obj (fields : List (String × JValue))
  | arr (items : List JValue)
  | str (s : String)
  | num (n : Int)
  | boolean (b : Bool)
  | null
deriving BEq

/-- Python `dict.get(key)` on the association list of an `obj`: first
binding wins. -/
def jsonGet (key : String) : List (String × JValue) → Option JValue
  | [] => none
  | (k, v) :: rest => if k == key then some v else jsonGet key rest

/-- Rendering of a JSON value.  Used only where Python would store a
non-string JSON value in a list that this embedding types as
`List String`; no claim exercises that corner. -/
def JValue.render : JValue → String
  | .obj _ => "object"
  | .arr _ => "array"
  | .str s => s
  | .num n => toString n
  | .boolean b => toString b
  | .null => "None"

/-! ## Prompt composer (src/libs/prompt_manager.py) -/

/-- The four prompt sections, in their fixed render order
(`class PromptSection(Enum)`). -/
inductive PromptSection where
  | PRE_PROMPT
  | BODY_PROMPT
  | USER_INPUT
  | POST_PROMPT
deriving DecidableEq

/-- The iteration order `for section in PromptSection`. -/
def PromptSection.all : List PromptSection :=
  [.PRE_PROMPT, .BODY_PROMPT, .USER_INPUT, .POST_PROMPT]

/-- `PromptSection[name]` (`Enum` lookup by member name); `none` models
the `KeyError` branch that skips unknown sections. -/
def sectionFromName (name : String) : Option PromptSection :=
  if name = "PRE_PROMPT" then some .PRE_PROMPT
  else if name = "BODY_PROMPT" then some .BODY_PROMPT
  else if name = "USER_INPUT" then some .USER_INPUT
  else if name = "POST_PROMPT" then some .POST_PROMPT
  else none

/-- `@dataclass PromptFragment`. -/
structure PromptFragment where
  module_id : String
  content : String
  is_system : Bool
deriving DecidableEq

/-- One section of `PromptManagerRebuild`: `_sections[s]` is an
insertion-ordered `dict` (association list, first binding per key), and
`_section_orders[s]` is the explicit render-order list. -/
structure SectionData where
  frags : List (String × PromptFragment)
  order : List String
deriving DecidableEq

/-- The state of a `PromptManagerRebuild`. -/
structure PMState where
  pre : SectionData
  body : SectionData
  userInput : SectionData
  post : SectionData
deriving DecidableEq

def PMState.sec (m : PMState) : PromptSection → SectionData
  | .PRE_PROMPT => m.pre
  | .BODY_PROMPT => m.body
  | .USER_INPUT => m.userInput
  | .POST_PROMPT => m.post

def PMState.setSec (m : PMState) : PromptSection → SectionData → PMState
  | .PRE_PROMPT, d => { m with pre := d }
  | .BODY_PROMPT, d => { m with body := d }
  | .USER_INPUT, d => { m with userInput := d }
  | .POST_PROMPT, d => { m with post := d }

/-- `PromptManagerRebuild.__init__` without a file: all sections empty. -/
def initPM : PMState :=
  ⟨⟨[], []⟩, ⟨[], []⟩, ⟨[], []⟩, ⟨[], []⟩⟩

/-- Python dict membership `k in d`. -/
def dictContains (k : String) (d : List (String × PromptFragment)) : Bool :=
  d.any (fun p => p.1 == k)

/-- Python dict lookup `d[k]` (first binding). -/
def dictGet (k : String) : List (String × PromptFragment) → Option PromptFragment
  | [] => none
  | (k', v) :: rest => if k' == k then some v else dictGet k rest

/-- Python dict assignment `d[k] = v`: update in place if present
(keeping the key's position), else append. -/
def dictPut (k : String) (v : PromptFragment)
    (d : List (String × PromptFragment)) : List (String × PromptFragment) :=
  if dictContains k d then
    d.map (fun p => if p.1 == k then (k, v) else p)
  else d ++ [(k, v)]

/-- Python `del d[k]`. -/
def dictDel (k : String) (d : List (String × PromptFragment)) :
    List (String × PromptFragment) :=
  d.filter (fun p => !(p.1 == k))

/-- Python `l.index(t)` on a list of ids: the first index holding `t`
(`none` models the raised `ValueError`). -/
def pyIndex : List String → String → Option Nat
  | [], _ => none
  | a :: rest, t => if a = t then some 0 else (pyIndex rest t).map (· + 1)

/-- `load_init_sections`: for each given section, install the protected
`system` fragment and reset that section's order to `["system"]`. -/
def load_init_sections (m : PMState)
    (init_contents : List (PromptSection × String)) : PMState :=
  init_contents.foldl
    (fun m' (sc : PromptSection × String) =>
      let sd := m'.sec sc.1
      m'.setSec sc.1
        ⟨dictPut "system" ⟨"system", sc.2, true⟩ sd.frags, ["system"]⟩)
    m

/-- `add_prompt`.  Returns the Python `bool` result together with the
resulting state. -/
def add_prompt (m : PMState) (s : PromptSection) (module_id content : String)
    (insert_after : Option String) : Bool × PMState :=
  if module_id = "system" then (false, m)
  else
    let sd := m.sec s
    if dictContains module_id sd.frags then
      -- existing module: update the stored fragment's content in place
      (true, m.setSec s
        ⟨sd.frags.map (fun p =>
            if p.1 == module_id then (p.1, { p.2 with content := content }) else p),
          sd.order⟩)
    else
      let frag : PromptFragment := ⟨module_id, content, false⟩
      let frags' := dictPut module_id frag sd.frags
      let order' :=
        match insert_after with
        | some t =>
          if t ∈ sd.order then
            sd.order.insertIdx ((pyIndex sd.order t).getD 0 + 1) module_id
          else sd.order ++ [module_id]
        | none =>
          if 0 < sd.order.length ∧ sd.order.head? = some "system" then
            sd.order.insertIdx 1 module_id
          else sd.order ++ [module_id]
      (true, m.setSec s ⟨frags', order'⟩)

/-- `remove_prompt`: refuses `"system"` and unknown ids, otherwise
deletes the fragment and its order entry. -/
def remove_prompt (m : PMState) (s : PromptSection) (module_id : String) :
    Bool × PMState :=
  if module_id = "system" then (false, m)
  else if !dictContains module_id (m.sec s).frags then (false, m)
  else
    let sd := m.sec s
    (true, m.setSec s ⟨dictDel module_id sd.frags, sd.order.erase module_id⟩)

/-- Result of `move_prompt`: Python returns a `bool`, but
`order_list.index(target)` raises `ValueError` when the target was the
moved module itself (it was just removed from the list). -/
inductive MoveRes where
  | ret (ok : Bool) (m : PMState)
  | exn (m : PMState)
deriving DecidableEq

/-- `move_prompt`. -/
def move_prompt (m : PMState) (s : PromptSection) (module_id target : String)
    (before : Bool) : MoveRes :=
  if module_id = "system" then .ret false m
  else if target = "system" ∧ before then .ret false m
  else if module_id ∉ (m.sec s).order then .ret false m
  else if target ∉ (m.sec s).order then .ret false m
  else
    let sd := m.sec s
    let ol := sd.order.erase module_id
    match pyIndex ol target with
    | none =>
      -- `ol.index(target)` raised; the order list is left with the module
      -- removed and not re-inserted
      .exn (m.setSec s ⟨sd.frags, ol⟩)
    | some i =>
      let j := if before then i else i + 1
      .ret true (m.setSec s ⟨sd.frags, ol.insertIdx j module_id⟩)

/-- `clear_section`: drop everything, then restore the `system` fragment
if one was present. -/
def clear_section (m : PMState) (s : PromptSection) : PMState :=
  match dictGet "system" (m.sec s).frags with
  | some f => m.setSec s ⟨[("system", f)], ["system"]⟩
  | none => m.setSec s ⟨[], []⟩

/-- `get_section_content`: contents of the fragments listed in the order
list and present in the dict, joined by newlines. -/
def get_section_content (sd : SectionData) : String :=
  pyJoin "\n" (sd.order.filterMap (fun id => (dictGet id sd.frags).map (·.content)))

/-- The list `full_prompt_parts` built by `get_full_prompt`: per section
in fixed order, the section content if non-empty, then the per-call
override if one was supplied (note: an override equal to `""` passes the
`is not None` check and is appended). -/
def promptParts (m : PMState) (extra : PromptSection → Option String) :
    List String :=
  PromptSection.all.foldr
    (fun s acc =>
      (let c := get_section_content (m.sec s)
       (if c ≠ "" then [c] else []) ++
         (match extra s with
          | some e => [e]
          | none => []) ++ acc))
    []

/-- `get_full_prompt`. -/
def get_full_prompt (m : PMState) (extra : PromptSection → Option String) :
    String :=
  pyJoin "\n" (promptParts m extra)

/-- Input record for `from_dict`: per fragment id, `content` and the
optional `is_system` flag (`fragment_data.get("is_system", False)`). -/
structure FragEntry where
  content : String
  is_system : Option Bool
deriving DecidableEq

/-- `from_dict`: starts from an empty manager, skips unknown section
names, and restores each known section's fragments and order exactly as
listed in the input record. -/
def from_dict (data : List (String × List (String × FragEntry))) : PMState :=
  data.foldl
    (fun m (sd : String × List (String × FragEntry)) =>
      match sectionFromName sd.1 with
      | none => m
      | some s =>
        m.setSec s
          ⟨sd.2.map (fun e => (e.1, ⟨e.1, e.2.content, e.2.is_system.getD false⟩)),
            sd.2.map (·.1)⟩)
    initPM

/-! ## Session state (GameEngine.__init__, src/game_engine.py) -/

/-- The mutable state of a `GameEngine`, restricted to the fields the
embedded methods read or write.  `history_simple_summaries` is typed
`List String` (the spec's summary strings); `conclude_summary_cooldown`
is an `Int` because the code decrements it without bound. -/
structure Session where
  current_response : Option String
  conversation_history : List (String × Option String)
  history_descriptions : List String
  history_choices : List String
  history_simple_summaries : List String
  current_description : String
  summary_conclude_val : Nat
  conclude_summary_cooldown : Int
  compressed_summary_textmin : Nat
  total_prompt_tokens : Nat
  l_p_token : Nat
  total_completion_tokens : Nat
  l_c_token : Nat
  total_tokens : Nat
  token_consumes : List Nat
  max_tokens : Nat
  pm_start : PMState
  pm_continue : PMState
  pm_summary : PMState
  player_name : String
  player_story : String
  custom_pre : String
  custom_body : String
  custom_post : String
deriving DecidableEq

/-- `GameEngine.__init__`: empty histories and counters; the prompt
managers' contents and the user configuration are parameters (they are
loaded from files outside the repository). -/
def initSession (pmS pmC pmSum : PMState)
    (pname pstory cpre cbody cpost : String) (maxTok : Nat) : Session where
  current_response := some ""
  conversation_history := []
  history_descriptions := []
  history_choices := []
  history_simple_summaries := []
  current_description := "游戏开始"
  summary_conclude_val := 24
  conclude_summary_cooldown := 10
  compressed_summary_textmin := 320
  total_prompt_tokens := 0
  l_p_token := 0
  total_completion_tokens := 0
  l_c_token := 0
  total_tokens := 0
  token_consumes := []
  max_tokens := maxTok
  pm_start := pmS
  pm_continue := pmC
  pm_summary := pmSum
  player_name := pname
  player_story := pstory
  custom_pre := cpre
  custom_body := cbody
  custom_post := cpost

/-- One answer of the external model client, as observed by `call_ai`:
either an exception (`openai.APITimeoutError` / `openai.OpenAIError`,
both of which make `call_ai` return `None`), or a response carrying the
optional `usage` record (prompt/completion/total tokens),
`message.content`, and `message.reasoning_content`. -/
inductive ClientResult where
  | fail
  | ok (usage : Option (Nat × Nat × Nat)) (content : Option String)
      (reasoning : Option String)
deriving DecidableEq

/-- Oracles for the external JSON machinery: `loadsRepair` is
`json.loads(repair_json(text))`, `loads` is plain `json.loads`; `none`
models a raised decode error.  `unwrapFuel` bounds the unwrap loop of
`parse_ai_response`, which Python does not bound. -/
structure World where
  loadsRepair : String → Option JValue
  loads : String → Option JValue
  unwrapFuel : Nat

/-- The text returned by `call_ai` for one client answer (lines 124-155):
the content when truthy, else the `reasoning_content` fallback — from
which, when both braces are found in the right order, the brace-delimited
slice is returned; in every other case `None`. -/
def call_ai_text (r : ClientResult) : Option String :=
  match r with
  | .fail => none
  | .ok _ content reasoning =>
    if truthyS content then content
    else if !truthyS reasoning then none
    else
      let rs := (reasoning.getD "").data
      match pyFindChar lbrace rs, pyRFindChar rbrace rs with
      | some i, some j =>
        if i < j then some (String.mk (pySlice rs i (j + 1))) else none
      | _, _ => none

/-- The state mutation of `call_ai` for one client answer: on an
exception nothing was mutated yet; on a response, record usage when
present, append the two conversation entries, and leave
`current_response` at the value the method last assigned. -/
def call_ai_state (st : Session) (prompt : String) (r : ClientResult) :
    Session :=
  match r with
  | .fail => st
  | .ok usage content reasoning =>
    let st :=
      match usage with
      | none => st
      | some (p, c, t) =>
        { st with
          total_prompt_tokens := st.total_prompt_tokens + p
          l_p_token := p
          total_completion_tokens := st.total_completion_tokens + c
          l_c_token := c
          total_tokens := st.total_tokens + t }
    let st :=
      { st with
        current_response := content
        conversation_history :=
          st.conversation_history ++ [("user", some prompt), ("assistant", content)] }
    if truthyS content then st
    else
      let st := { st with current_response := reasoning }
      if !truthyS reasoning then st
      else
        let rs := (reasoning.getD "").data
        match pyFindChar lbrace rs, pyRFindChar rbrace rs with
        | some i, some j =>
          if i < j then
            { st with current_response := some (String.mk (pySlice rs i (j + 1))) }
          else st
        | _, _ => st

/-- `call_ai`: the returned text and the mutated state. -/
def call_ai (st : Session) (prompt : String) (r : ClientResult) :
    Option String × Session :=
  (call_ai_text r, call_ai_state st prompt r)

/-! ## Response parser (GameEngine.parse_ai_response) -/

/-- Outcome of `parse_ai_response`: the Python `True`/`False` returns,
an uncaught exception, or divergence of the unbounded unwrap loop
(modelled by fuel exhaustion). -/
inductive POutcome where
  | success
  | failure
  | exn (msg : String)
  | diverge
deriving DecidableEq

/-- Result of the `while not isinstance(json_response, dict)` unwrap
loop (lines 178-189). -/
inductive UnwrapRes where
  | dict (fields : List (String × JValue))
  | failed
  | exnEmpty
  | diverge

/-- The unwrap loop: a non-mapping value is unwrapped — a sequence to its
first element (`json_response[0]` raises `IndexError` on an empty one, a
case the `except (ValueError, json.JSONDecodeError)` clause does not
catch), a string through `json.loads` again — and any other type returns
`False`. -/
def unwrapLoop (W : World) : Nat → JValue → UnwrapRes
  | _, .obj fields => .dict fields
  | 0, _ => .diverge
  | _ + 1, .arr [] => .exnEmpty
  | fuel + 1, .arr (x :: _) => unwrapLoop W fuel x
  | fuel + 1, .str s =>
    match W.loads s with
    | none => .failed
    | some v => unwrapLoop W fuel v
  | _ + 1, .num _ => .failed
  | _ + 1, .boolean _ => .failed
  | _ + 1, .null => .failed

/-- The chained single-character replacements of line 166-167 (full-width
quotes, colon and comma to ASCII); a one-character `str.replace` is a
character map. -/
def normalizeChar (c : Char) : Char :=
  if c = '“' ∨ c = '”' then '"'
  else if c = '：' then ':'
  else if c = '，' then ','
  else c

/-- `re.sub("。(?!』)", "。\n", s)`: newline after every `。` not
followed by `』`. -/
def reflowDot : Str → Str
  | [] => []
  | c :: rest =>
    if c = '。' then
      match rest with
      | '』' :: _ => c :: reflowDot rest
      | _ => c :: '\n' :: reflowDot rest
    else c :: reflowDot rest

/-- `s.replace("』", "』\n")` (single-character pattern). -/
def expandQuote : Str → Str
  | [] => []
  | c :: rest =>
    if c = '』' then c :: '\n' :: expandQuote rest else c :: expandQuote rest

/-- The description reflow of lines 196-202. -/
def reflowDescription (s : String) : String :=
  String.mk (expandQuote (reflowDot s.data))

/-- The `json_response.get("summary", "")` value appended to
`history_simple_summaries`; a non-string JSON value is stored via its
rendering (see `JValue.render`). -/
def summaryField (fields : List (String × JValue)) : String :=
  match jsonGet "summary" fields with
  | none => ""
  | some v => v.render

/-- Lines 166-176 of `parse_ai_response`: normalize punctuation, then
cut the candidate JSON between the first `{` and the last `}` when both
exist in that order, falling back to the whole text. -/
def candidateContent (response : String) : String :=
  let r1 : Str := response.data.map normalizeChar
  String.mk
    (match pyFindChar lbrace r1, pyRFindChar rbrace r1 with
     | some i, some j => if i < j then pySlice r1 i (j + 1) else r1
     | _, _ => r1)

/-- `parse_ai_response` (lines 159-214): normalize punctuation, cut the
candidate JSON between the first `{{` and last `}}` when they exist in
that order, run the repair/parse oracle, unwrap to a mapping, then
require a non-blank `description`; on success reflow the description and
append the summary.  A `description` value that is not a string makes
Python raise `AttributeError` at `.strip()` after the assignment — an
uncaught exception. -/
def parse_ai_response (W : World) (st : Session) (response : String) :
    POutcome × Session :=
  match W.loadsRepair (candidateContent response) with
  | none => (.failure, st)
  | some v =>
    match unwrapLoop W W.unwrapFuel v with
    | .failed => (.failure, st)
    | .exnEmpty => (.exn "IndexError", st)
    | .diverge => (.diverge, st)
    | .dict fields =>
      match (jsonGet "description" fields).getD (.str "") with
      | .str d =>
        let st := { st with current_description := d }
        if (pyStrip d.data).isEmpty then (.failure, st)
        else
          let d2 := reflowDescription d
          let st := { st with current_description := d2 }
          if d2 ≠ "" then
            (.success,
              { st with
                history_simple_summaries :=
                  st.history_simple_summaries ++ [summaryField fields] })
          else (.success, st)
      | _ =>
        -- Python assigned the non-string value to `current_description`
        -- (unrepresentable in this embedding) and then raised
        (.exn "AttributeError", st)

/-! ## Turn protocol and compaction engine -/

/-- Outcome of a whole engine call (`start_game` / `go_game` /
`conclude_summary`): normal return with the remaining client stream, an
uncaught exception, exhaustion of the client stream inside one of the
operator-gated retry loops (`pending`), or divergence of the parser's
unwrap loop. -/
inductive GOutcome where
  | ok (st : Session) (rest : List ClientResult)
  | exn (msg : String) (st : Session)
  | pending (st : Session)
  | diverge (st : Session)
deriving DecidableEq

/-- Result of a call-then-parse retry loop. -/
inductive StepRes where
  | done (st : Session) (rest : List ClientResult)
  | pending (st : Session)
  | exn (msg : String) (st : Session)
  | diverge (st : Session)
deriving DecidableEq

/-- The per-call override dict built by `go_game` for the continuation
template (no `USER_INPUT` entry). -/
def continueExtras (st : Session) : PromptSection → Option String
  | .PRE_PROMPT =>
    some ("玩家姓名: " ++ st.player_name ++ ",玩家背景: " ++ st.player_story
      ++ st.custom_pre)
  | .BODY_PROMPT => some st.custom_body
  | .USER_INPUT => none
  | .POST_PROMPT => some st.custom_post

/-- The continuation prompt: render the `continue` template, then
substitute the three placeholders. -/
def buildContinuePrompt (st : Session) (lastSum user_ipt : String) : String :=
  let p0 := get_full_prompt st.pm_continue (continueExtras st)
  let p1 := pyReplaceStr p0.data "{history_story}".data lastSum.data
  let p2 := pyReplaceStr p1 "{current_scene}".data st.current_description.data
  String.mk (pyReplaceStr p2 "{player_action}".data user_ipt.data)

/-- The parse-failure retry loop (`while not ok_sign`, lines 281-285 and
237-242): re-call until a call succeeds and parses; a `None` response
inside the loop just loops again. -/
def goRetryLoop (W : World) (prompt : String) (st : Session) :
    List ClientResult → StepRes
  | [] => .pending st
  | r :: rest =>
    let st' := call_ai_state st prompt r
    match call_ai_text r with
    | none => goRetryLoop W prompt st' rest
    | some text =>
      match parse_ai_response W st' text with
      | (.success, st2) => .done st2 rest
      | (.failure, st2) => goRetryLoop W prompt st2 rest
      | (.exn m, st2) => .exn m st2
      | (.diverge, st2) => .diverge st2

/-- Lines 278-285 of `go_game`: one call; if it returned text, parse and
retry on parse failure — but when the first call reports a hard failure
(`None`), control falls through to the commit without any retry. -/
def goCallPhase (W : World) (prompt : String) (st : Session) :
    List ClientResult → StepRes
  | [] => .pending st
  | r :: rest =>
    let st' := call_ai_state st prompt r
    match call_ai_text r with
    | none => .done st' rest
    | some text =>
      match parse_ai_response W st' text with
      | (.success, st2) => .done st2 rest
      | (.failure, st2) => goRetryLoop W prompt st2 rest
      | (.exn m, st2) => .exn m st2
      | (.diverge, st2) => .diverge st2

/-- The unconditional commit of `go_game` (lines 286-292). -/
def goCommit (st : Session) (user_ipt : String) : Session :=
  { st with
    token_consumes := st.token_consumes ++ [st.l_p_token + st.l_c_token]
    conclude_summary_cooldown := st.conclude_summary_cooldown - 1
    history_descriptions := st.history_descriptions ++ [st.current_description]
    history_choices := st.history_choices ++ [user_ipt] }

/-- `go_game` lines 258-292, after the compaction check: build the
continuation prompt (reading `history_simple_summaries[-1]`, an
`IndexError` when no summary exists), raise `ValueError` on an empty
prompt, call/parse, and commit. -/
def goTurnBody (W : World) (st : Session) (user_ipt : String)
    (stream : List ClientResult) : GOutcome :=
  if user_ipt = "" then .exn "ValueError" st
  else
    match st.history_simple_summaries.getLast? with
    | none => .exn "IndexError" st
    | some lastSum =>
      let prompt := buildContinuePrompt st lastSum user_ipt
      if prompt = "" then .exn "ValueError" st
      else
        match goCallPhase W prompt st stream with
        | .done st' rest => .ok (goCommit st' user_ipt) rest
        | .pending st' => .pending st'
        | .exn m st' => .exn m st'
        | .diverge st' => .diverge st'

/-- `phase_summary` inside `conclude_summary` (lines 303-310): repair and
parse the response, then read `r["summary"]`.  A missing key
(`KeyError`) and decode errors are caught and retried; subscripting a
non-mapping raises `TypeError`, which the `except` clause does not
catch.  A `None` response is treated as a caught failure (the external
`repair_json` receives a non-string). -/
inductive PhaseRes where
  | got (summ : String)
  | failed
  | exnType
deriving DecidableEq

def phase_summary (W : World) (resp : Option String) : PhaseRes :=
  match resp with
  | none => .failed
  | some s =>
    match W.loadsRepair s with
    | none => .failed
    | some (.obj fields) =>
      match jsonGet "summary" fields with
      | none => .failed
      | some v => .got v.render
    | some _ => .exnType

/-- Result of the summary retry loop of `conclude_summary`. -/
inductive SummRes where
  | got (summ : String) (st : Session) (rest : List ClientResult)
  | pending (st : Session)
  | exn (msg : String) (st : Session)
deriving DecidableEq

/-- The `while not ok_sign` retry loop of `conclude_summary` (lines
330-334 and 359-363); retries run at the restored `max_tokens`. -/
def concludeLoop (W : World) (prompt : String) (st : Session) :
    List ClientResult → SummRes
  | [] => .pending st
  | r :: rest =>
    let st' := call_ai_state st prompt r
    match phase_summary W (call_ai_text r) with
    | .got summ => .got summ st' rest
    | .failed => concludeLoop W prompt st' rest
    | .exnType => .exn "TypeError" st'

/-- The summaries rewrite and cooldown reset of the dilution strategy
(lines 335-337): `[summ] + summaries[10:]`. -/
def dilutionResult (st : Session) (summ : String) : Session :=
  { st with
    history_simple_summaries := summ :: st.history_simple_summaries.drop 10
    conclude_summary_cooldown := 10 }

/-- The summaries rewrite and cooldown reset of the compression strategy
(lines 364-366): all non-empty summaries of length at least
`compressed_summary_textmin`, then the new summary. -/
def compressResult (st : Session) (summ : String) : Session :=
  { st with
    history_simple_summaries :=
      st.history_simple_summaries.filter
        (fun i => !i.isEmpty && st.compressed_summary_textmin ≤ i.length)
        ++ [summ]
    conclude_summary_cooldown := 10 }

/-- `self.token_consumes[-1] += self.l_p_token + self.l_c_token` (lines
338 and 367): an `IndexError` on an empty list. -/
def tokenBump (st : Session) (rest : List ClientResult) : GOutcome :=
  match st.token_consumes with
  | [] => .exn "IndexError" st
  | _ =>
    .ok
      { st with
        token_consumes :=
          st.token_consumes.dropLast
            ++ [st.token_consumes.getLast?.getD 0 + (st.l_p_token + st.l_c_token)] }
      rest

/-- The strategy dispatch condition of `conclude_summary` (line 313):
dilution is used when no summary before the last one is non-empty and
shorter than `compressed_summary_textmin`. -/
def usesDilution (st : Session) : Bool :=
  !(st.history_simple_summaries.dropLast.any
      (fun i => !i.isEmpty && i.length < st.compressed_summary_textmin))

/-- The override dict of the dilution summarization prompt (lines
315-320): all non-empty summaries except the most recent 10. -/
def dilutionExtras (st : Session) : PromptSection → Option String
  | .PRE_PROMPT =>
    some ("玩家姓名: " ++ st.player_name ++ ",玩家背景: " ++ st.player_story)
  | .USER_INPUT =>
    some ("历史剧情摘要: " ++
      pyJoin "\n"
        ((st.history_simple_summaries.take
            (st.history_simple_summaries.length - 10)).filter
          (fun i => !i.isEmpty)))
  | _ => none

/-- The override dict of the compression summarization prompt (lines
343-348): all non-empty summaries shorter than the threshold. -/
def compressExtras (st : Session) : PromptSection → Option String
  | .PRE_PROMPT => some ("玩家姓名: " ++ st.player_name)
  | .USER_INPUT =>
    some ("历史剧情摘要: " ++
      pyJoin "\n"
        (st.history_simple_summaries.filter
          (fun i => !i.isEmpty && i.length < st.compressed_summary_textmin)))
  | _ => none

/-- The dilution strategy (lines 314-339): the first call runs at
`max_tokens = 20480`, which is restored before the retry loop. -/
def conclude_dilution (W : World) (st : Session)
    (stream : List ClientResult) : GOutcome :=
  let prompt := get_full_prompt st.pm_summary (dilutionExtras st)
  match stream with
  | [] => .pending { st with max_tokens := 20480 }
  | r :: rest =>
    let tmp := st.max_tokens
    let st1 := call_ai_state { st with max_tokens := 20480 } prompt r
    let st2 := { st1 with max_tokens := tmp }
    match phase_summary W (call_ai_text r) with
    | .got summ => tokenBump (dilutionResult st2 summ) rest
    | .exnType => .exn "TypeError" st2
    | .failed =>
      match concludeLoop W prompt st2 rest with
      | .got summ st3 rest' => tokenBump (dilutionResult st3 summ) rest'
      | .pending st3 => .pending st3
      | .exn m st3 => .exn m st3

/-- The compression strategy (lines 341-368): the first call runs at
`max_tokens = 2048`. -/
def conclude_compress (W : World) (st : Session)
    (stream : List ClientResult) : GOutcome :=
  let prompt := get_full_prompt st.pm_summary (compressExtras st)
  match stream with
  | [] => .pending { st with max_tokens := 2048 }
  | r :: rest =>
    let tmp := st.max_tokens
    let st1 := call_ai_state { st with max_tokens := 2048 } prompt r
    let st2 := { st1 with max_tokens := tmp }
    match phase_summary W (call_ai_text r) with
    | .got summ => tokenBump (compressResult st2 summ) rest
    | .exnType => .exn "TypeError" st2
    | .failed =>
      match concludeLoop W prompt st2 rest with
      | .got summ st3 rest' => tokenBump (compressResult st3 summ) rest'
      | .pending st3 => .pending st3
      | .exn m st3 => .exn m st3

/-- `conclude_summary` (lines 297-368). -/
def conclude_summary (W : World) (st : Session)
    (stream : List ClientResult) : GOutcome :=
  if usesDilution st then conclude_dilution W st stream
  else conclude_compress W st stream

/-- `go_game` (lines 248-292).  The recursive call
`self.go_game(user_ipt, True)` only runs `conclude_summary` and returns
(its trigger check is disabled by `not is_prompt_concluding`), so it is
inlined as such. -/
def go_game (W : World) (st : Session) (user_ipt : String)
    (is_prompt_concluding : Bool) (stream : List ClientResult) : GOutcome :=
  if is_prompt_concluding then conclude_summary W st stream
  else if st.history_simple_summaries.length > st.summary_conclude_val
      ∧ st.conclude_summary_cooldown < 1 then
    match conclude_summary W st stream with
    | .ok st' rest => goTurnBody W st' user_ipt rest
    | e => e
  else goTurnBody W st user_ipt stream

/-- The override dict built by `start_game` (lines 223-230). -/
def startExtras (st : Session) (st_story : String) :
    PromptSection → Option String
  | .PRE_PROMPT =>
    some ("玩家姓名: " ++ st.player_name ++ ",玩家背景: " ++ st.player_story
      ++ st.custom_pre)
  | .BODY_PROMPT => some st.custom_body
  | .USER_INPUT =>
    some ("以" ++ (if st_story ≠ "" then st_story else "一个完全随机的场景")
      ++ "为故事开头，开始本局沉浸式文字游戏")
  | .POST_PROMPT => some st.custom_post

/-- The call loop of `start_game` (lines 231-242): unlike `go_game`, a
hard failure here re-calls until text is obtained; then parse failures
re-enter the same retry loop as `go_game`. -/
def startCallLoop (W : World) (prompt : String) (st : Session) :
    List ClientResult → StepRes
  | [] => .pending st
  | r :: rest =>
    let st' := call_ai_state st prompt r
    match call_ai_text r with
    | none => startCallLoop W prompt st' rest
    | some text =>
      match parse_ai_response W st' text with
      | (.success, st2) => .done st2 rest
      | (.failure, st2) => goRetryLoop W prompt st2 rest
      | (.exn m, st2) => .exn m st2
      | (.diverge, st2) => .diverge st2

/-- The unconditional commit of `start_game` (lines 243-244): one
description, one token entry, no choice. -/
def startCommit (st : Session) : Session :=
  { st with
    history_descriptions := st.history_descriptions ++ [st.current_description]
    token_consumes := st.token_consumes ++ [st.l_p_token + st.l_c_token] }

/-- `start_game` (lines 218-244). -/
def start_game (W : World) (st : Session) (st_story : String)
    (stream : List ClientResult) : GOutcome :=
  let prompt := get_full_prompt st.pm_start (startExtras st st_story)
  match startCallLoop W prompt st stream with
  | .done st' rest => .ok (startCommit st') rest
  | .pending st' => .pending st'
  | .exn m st' => .exn m st'
  | .diverge st' => .diverge st'

/-- A sequence of continuation turns: each turn is a player action with
the client answers it consumes; the run stops unless every turn returns
normally. -/
def runGo (W : World) :
    Session → List (String × List ClientResult) → Option Session
  | st, [] => some st
  | st, t :: rest =>
    match go_game W st t.1 false t.2 with
    | .ok st' _ => runGo W st' rest
    | _ => none

/-- The session state carried by any `GOutcome`. -/
def okState : GOutcome → Session
  | .ok st _ => st
  | .exn _ st => st
  | .pending st => st
  | .diverge st => st

/-! ## Autosave retention (manage_auto_saves, src/main.py lines 184-220)

File names are `List Char`.  `save_game` produces
`{save_name}_{YYYYMMDD_HHMMSS}.json.gz` for autosaves,
`manual_{save_name}_{timestamp}.json.gz` for manual saves, and the
pointer record `{save_name}_latest.json.gz`. -/

/-- The default save label `"autosave"`. -/
def autoPre : Str := ['a', 'u', 't', 'o', 's', 'a', 'v', 'e']

/-- The prefix `"manual_"` of manual save records. -/
def manualPre : Str := ['m', 'a', 'n', 'u', 'a', 'l', '_']

/-- `".json"`. -/
def jsonSuf : Str := ['.', 'j', 's', 'o', 'n']

/-- `".gz"`. -/
def gzSuf : Str := ['.', 'g', 'z']

/-- `".json.gz"`. -/
def jsonGzSuf : Str := ['.', 'j', 's', 'o', 'n', '.', 'g', 'z']

/-- `"_latest.json"`. -/
def latestJsonSuf : Str :=
  ['_', 'l', 'a', 't', 'e', 's', 't', '.', 'j', 's', 'o', 'n']

/-- `"_latest.json.gz"`. -/
def latestJsonGzSuf : Str :=
  ['_', 'l', 'a', 't', 'e', 's', 't', '.', 'j', 's', 'o', 'n', '.', 'g', 'z']

/-- The directory-listing filter of `manage_auto_saves` (lines 192-196):
starts with the save label, is not a manual save, is not the latest
pointer, and has a `.json` or `.json.gz` ending. -/
def isAutoSaveFile (save_name f : Str) : Bool :=
  pyStarts save_name f && !pyStarts manualPre f
    && !pyEnds latestJsonSuf f && !pyEnds latestJsonGzSuf f
    && (pyEnds jsonSuf f || pyEnds jsonGzSuf f)

/-- The timestamp scan of `get_file_timestamp` (lines 208-211): the
first `_`-separated part of length 15 whose first 8 and last 6
characters are digits.  Because `split('_')` also splits the embedded
`YYYYMMDD_HHMMSS` timestamp, no part of a well-formed name has length
15 and the fallback (the whole file name) is what the sort actually
uses. -/
def tsCandidate (parts : List Str) : Option Str :=
  parts.find?
    (fun p => p.length == 15 && pyIsdigitStr (p.take 8) && pyIsdigitStr (p.drop 9))

/-- `get_file_timestamp` (lines 203-212). -/
def get_file_timestamp (f : Str) : Str :=
  (tsCandidate
      (pySplitChar '_' (pyReplaceStr (pyReplaceStr f jsonSuf []) gzSuf []))).getD
    f

/-- The sort order of `auto_save_files.sort(key=get_file_timestamp)`:
Python's ascending, key-based comparison. -/
def keyLE (f g : Str) : Prop :=
  lexLt (get_file_timestamp g) (get_file_timestamp f) = false

instance : DecidableRel keyLE := fun f g =>
  inferInstanceAs
    (Decidable (lexLt (get_file_timestamp g) (get_file_timestamp f) = false))

/-- `manage_auto_saves`, returning the list of deleted file names
(`files_to_delete = auto_save_files[:-5]`, delete only when more than 5
autosave records exist). -/
def manage_auto_saves (save_name : Str) (files : List Str) : List Str :=
  let autos := files.filter (fun f => isAutoSaveFile save_name f)
  if autos.length > 5 then
    let sorted := List.insertionSort keyLE autos
    sorted.take (sorted.length - 5)
  else []

/-- The autosave file name written by `save_game` (line 156) for the
default label: `autosave_{ts}.json.gz`. -/
def autoName (ts : Str) : Str :=
  autoPre ++ '_' :: ts ++ jsonGzSuf

/-- A well-formed embedded timestamp `YYYYMMDD_HHMMSS`: 8 digits, an
underscore, 6 digits. -/
def validTS (ts : Str) : Bool :=
  ts.length == 15 && pyIsdigitStr (ts.take 8) && ts.get? 8 == some '_'
    && pyIsdigitStr (ts.drop 9)

/-- How many of the given timestamps are strictly more recent than
`ts` (timestamps in the `YYYYMMDD_HHMMSS` format order chronologically
exactly as strings). -/
def countMoreRecent (tss : List Str) (ts : Str) : Nat :=
  (tss.filter (fun t => lexLt ts t)).length

/-! ## Claim-level predicates and concrete instances -/

/-- The history-length invariant of §3: one more description than
choices. -/
def lenInv (st : Session) : Prop :=
  st.history_descriptions.length = st.history_choices.length + 1

/-- The fragment ids a section actually renders: its order list
restricted to ids present in the dict. -/
def renderIds (sd : SectionData) : List String :=
  sd.order.filter (fun id => dictContains id sd.frags)

/-- Every rendered protected fragment is first in its section's render
order. -/
def protectedFirstSec (sd : SectionData) : Bool :=
  (renderIds sd).all (fun id =>
    match dictGet id sd.frags with
    | some f => !f.is_system || ((renderIds sd).head? == some id)
    | none => true)

/-- `protectedFirstSec` over all four sections. -/
def protectedFirstPM (m : PMState) : Bool :=
  PromptSection.all.all (fun s => protectedFirstSec (m.sec s))

/-- Composer states reachable through the mutating public operations
(`load_init_sections`, `add_prompt`, `remove_prompt`, `move_prompt`,
`clear_section`) from a fresh manager. -/
inductive ReachablePM : PMState → Prop
  | init : ReachablePM initPM
  | load (m : PMState) (cs : List (PromptSection × String)) :
      ReachablePM m → ReachablePM (load_init_sections m cs)
  | add (m : PMState) (s : PromptSection) (id c : String)
      (ia : Option String) :
      ReachablePM m → ReachablePM (add_prompt m s id c ia).2
  | remove (m : PMState) (s : PromptSection) (id : String) :
      ReachablePM m → ReachablePM (remove_prompt m s id).2
  | move (m : PMState) (s : PromptSection) (id t : String) (b ok : Bool)
      (m' : PMState) :
      ReachablePM m → move_prompt m s id t b = .ret ok m' → ReachablePM m'
  | clear (m : PMState) (s : PromptSection) :
      ReachablePM m → ReachablePM (clear_section m s)

/-- Pointwise update of a per-call override dict. -/
def setExtra (extra : PromptSection → Option String) (s : PromptSection)
    (v : Option String) : PromptSection → Option String :=
  fun s' => if s' = s then v else extra s'

/-- A concrete session used by the concrete-evaluation theorems: a
mid-game state with one summary, one logged description and no prior
choice. -/
def baseSession : Session :=
  { current_response := some ""
    conversation_history := []
    history_descriptions := ["opening scene"]
    history_choices := []
    history_simple_summaries := ["summary one"]
    current_description := "current scene"
    summary_conclude_val := 24
    conclude_summary_cooldown := 10
    compressed_summary_textmin := 320
    total_prompt_tokens := 3
    l_p_token := 3
    total_completion_tokens := 4
    l_c_token := 4
    total_tokens := 7
    token_consumes := [7]
    max_tokens := 1024
    pm_start := initPM
    pm_continue := initPM
    pm_summary := initPM
    player_name := "p"
    player_story := "b"
    custom_pre := ""
    custom_body := ""
    custom_post := ""
  }

/-- A world whose repair oracle rejects everything (any text whose
repaired parse raises). -/
def wReject : World :=
  { loadsRepair := fun _ => none, loads := fun _ => none, unwrapFuel := 100 }

/-- A world that reproduces `json.loads(repair_json(·))` on the inputs
exercised by the concrete theorems: the literal `[]` parses to the empty
array. -/
def wEmptyArr : World :=
  { loadsRepair := fun s => if s = "[]" then some (.arr []) else none
    loads := fun _ => none
    unwrapFuel := 100 }

/-- C4's concrete state: threshold 1, cooldown 0, small-length bound 3,
summaries `["", "abcd"]` — the only entry before the last one is the
empty string, which is small by length yet skipped by the code's
truthiness test. -/
def ex4 : Session :=
  { baseSession with
    history_simple_summaries := ["", "abcd"]
    summary_conclude_val := 1
    conclude_summary_cooldown := 0
    compressed_summary_textmin := 3 }

/-- A world whose repair oracle parses the text `summ-json` as
`{"summary": "NEW"}`. -/
def wSummaryNew : World :=
  { loadsRepair := fun s =>
      if s = "summ-json" then some (.obj [("summary", .str "NEW")]) else none
    loads := fun _ => none
    unwrapFuel := 100 }

/-- A client answer carrying the text `summ-json`. -/
def rSummaryNew : ClientResult :=
  .ok none (some "summ-json") none

/-- A concrete override dict: a pre-amble override only. -/
def extra10 : PromptSection → Option String :=
  fun s' => if s' = PromptSection.PRE_PROMPT then some "hello" else none

/-- C6's concrete state: small-length bound 3, summaries
`["abcdef", "x", "zz"]` — the non-empty small entry `"x"` before the
last one selects the compression strategy. -/
def ex6 : Session :=
  { baseSession with
    history_simple_summaries := ["abcdef", "x", "zz"]
    compressed_summary_textmin := 3 }

/-- C5's concrete state: threshold 24, cooldown 0, 25 summaries all of
length at or above the (here, 1) small-length bound. -/
def ex5 : Session :=
  { baseSession with
    history_simple_summaries := List.replicate 25 "ss"
    compressed_summary_textmin := 1
    conclude_summary_cooldown := 0 }

/-- A world reproducing the repair oracle on the two response texts used
by the concrete opening-plus-continuation run. -/
def w3 : World :=
  { loadsRepair := fun s =>
      if s = "r1" then
        some (.obj [("description", .str "D1"), ("summary", .str "S1")])
      else if s = "r2" then
        some (.obj [("description", .str "D2"), ("summary", .str "S2")])
      else none
    loads := fun _ => none
    unwrapFuel := 100 }

/-- A fresh session for the concrete run. -/
def init3 : Session :=
  initSession initPM initPM initPM "p" "b" "" "" "" 512

/-- The opening turn's client stream. -/
def stream3a : List ClientResult := [.ok none (some "r1") none]

/-- The continuation turn's client stream. -/
def stream3b : List ClientResult := [.ok none (some "r2") none]

/-- The inductive invariant of the composer's mutating operations: every
protected fragment is keyed `"system"`, a listed `"system"` id is first,
the order list has no duplicates, and every listed id is present in the
dict. -/
def SecInv (sd : SectionData) : Prop :=
  (∀ p ∈ sd.frags, p.2.is_system = true → p.1 = "system")
    ∧ ("system" ∈ sd.order → sd.order.head? = some "system")
    ∧ sd.order.Nodup
    ∧ (∀ id ∈ sd.order, dictContains id sd.frags = true)

/-- `SecInv` over all four sections. -/
def PMInv (m : PMState) : Prop :=
  ∀ s : PromptSection, SecInv (m.sec s)

/-- C8's counterexample input to `from_dict`: a section record listing a
non-protected fragment before the protected one. -/
def c8data : List (String × List (String × FragEntry)) :=
  [("PRE_PROMPT", [("a", ⟨"x", some false⟩), ("system", ⟨"y", some true⟩)])]

/-- A concrete reachable composer state: a protected pre-amble fragment
plus one custom fragment added after it. -/
def m8 : PMState :=
  (add_prompt (load_init_sections initPM [(.PRE_PROMPT, "sys")]) .PRE_PROMPT
    "a" "x" none).2

/-- Six distinct well-formed autosave timestamps. -/
def wTss : List Str :=
  ["20240101_120000".data, "20240102_120000".data, "20240103_120000".data,
   "20240104_120000".data, "20240105_120000".data, "20240106_120000".data]

/-- A concrete directory listing: a manual save, six autosave records
and the latest pointer. -/
def wFiles : List Str :=
  "manual_autosave_20240101_120000.json.gz".data
    :: (wTss.map autoName ++ ["autosave_latest.json.gz".data])

/-! ## Theorems -/

/-- C2: whenever `parse_ai_response` returns failure — irrecoverable
JSON, a non-mapping value, or a blank description — the summary,
description and choice histories hold exactly their prior values. -/
theorem c2_parse_failure_preserves_history (W : World) (st : Session)
    (resp : String) (st' : Session)
    (h : parse_ai_response W st resp = (.failure, st')) :
    st'.history_simple_summaries = st.history_simple_summaries ∧
      st'.history_descriptions = st.history_descriptions ∧
      st'.history_choices = st.history_choices := by
  unfold parse_ai_response at h
  repeat' split at h
  any_goals simp_all
  any_goals (split at h <;> simp_all)
  all_goals (subst h; exact ⟨rfl, rfl, rfl⟩)

/-- Witness for C2 at a concrete failing parse. -/
theorem c2_parse_failure_preserves_history_witness :
    parse_ai_response wReject baseSession "x" = (.failure, baseSession) ∧
      (baseSession.history_simple_summaries = baseSession.history_simple_summaries ∧
        baseSession.history_descriptions = baseSession.history_descriptions ∧
        baseSession.history_choices = baseSession.history_choices) :=
  ⟨rfl, c2_parse_failure_preserves_history wReject baseSession "x" baseSession rfl⟩

/-- C7 fails on the code: a response whose repaired JSON value is the
empty array makes `json_response[0]` raise `IndexError`, which the
`except (ValueError, json.JSONDecodeError)` clause does not catch, so
`parse_ai_response` aborts instead of signalling failure. -/
theorem c7_empty_array_raises_index_error :
    parse_ai_response wEmptyArr baseSession "[]"
      = (.exn "IndexError", baseSession) := by
  rfl

/-- C1 fails on the code: when the model call inside `go_game` reports a
hard failure (`call_ai` returns `None`) and no successful call follows,
the turn still commits — it appends the stale `current_description` to
`historyDescriptions`, the action to `historyChoices`, and a new entry
to `tokenConsumes` (only `summaries` stays unchanged). -/
theorem c1_hard_failure_still_commits :
    go_game wReject baseSession "go" false [.fail]
      = .ok
          { baseSession with
            token_consumes := [7, 7]
            conclude_summary_cooldown := 9
            history_descriptions := ["opening scene", "current scene"]
            history_choices := ["go"] }
          [] := by
  decide

/-- C4 fails on the code: with summaries `["", "abcd"]`, threshold `1`
and cooldown `0`, the entry before the last one (the empty string) is
small — its length is below `compressed_summary_textmin` — so the claim
requires the compression strategy; but the truthiness conjunct
`i and len(i) < ...` skips empty strings, `usesDilution` holds, and the
completed compaction has the dilution shape `[newSummary] +
summaries[10:] = ["NEW"]` rather than the compression shape
`["abcd", "NEW"]`. -/
theorem c4_counterexample :
    ex4.history_simple_summaries.length > ex4.summary_conclude_val
      ∧ ex4.conclude_summary_cooldown < 1
      ∧ (ex4.history_simple_summaries.dropLast.any
          (fun i => i.length < ex4.compressed_summary_textmin)) = true
      ∧ usesDilution ex4 = true
      ∧ (okState (conclude_summary wSummaryNew ex4 [rSummaryNew])).history_simple_summaries
          = ["NEW"] := by
  decide

/-- C4 amended: under the claim's trigger conditions, the compression
strategy is selected exactly when some entry before the last one is
both non-empty and small; empty-string entries are ignored by the
strategy check, and dilution is selected exactly when every earlier
entry is empty or large. -/
theorem c4_amended_strategy_selection (st : Session)
    (h1 : st.history_simple_summaries.length > st.summary_conclude_val)
    (h2 : st.conclude_summary_cooldown < 1) :
    (usesDilution st = false ↔
      ∃ i ∈ st.history_simple_summaries.dropLast,
        i ≠ "" ∧ i.length < st.compressed_summary_textmin)
      ∧ (usesDilution st = true ↔
        ∀ i ∈ st.history_simple_summaries.dropLast,
          i = "" ∨ st.compressed_summary_textmin ≤ i.length) := by
  have hne : ∀ s : String, (s.isEmpty = false) ↔ s ≠ "" := by
    intro s
    constructor
    · intro h hs
      rw [hs] at h
      exact absurd h (by decide)
    · intro h
      cases hE : s.isEmpty
      · rfl
      · exact absurd ((String.isEmpty_iff s).mp hE) h
  unfold usesDilution
  constructor
  · simp [hne]
  · simp [hne, not_lt, or_iff_not_imp_left]

/-- Witness for the amended C4 at the concrete state `ex4`. -/
theorem c4_amended_strategy_selection_witness :
    ex4.history_simple_summaries.length > ex4.summary_conclude_val
      ∧ ex4.conclude_summary_cooldown < 1
      ∧ ((usesDilution ex4 = false ↔
          ∃ i ∈ ex4.history_simple_summaries.dropLast,
            i ≠ "" ∧ i.length < ex4.compressed_summary_textmin)
        ∧ (usesDilution ex4 = true ↔
          ∀ i ∈ ex4.history_simple_summaries.dropLast,
            i = "" ∨ ex4.compressed_summary_textmin ≤ i.length)) :=
  ⟨by decide, by decide,
    c4_amended_strategy_selection ex4 (by decide) (by decide)⟩

/-- Helper: `filterMap` of a constantly-`none` function is empty. -/
theorem filterMap_const_none {α β : Type} (l : List α) :
    List.filterMap (fun _ => (none : Option β)) l = [] := by
  induction l with
  | nil => rfl
  | cons a rest ih => simpa [List.filterMap] using ih

/-- Helper: length of a newline join: the summed part lengths plus one
separator per gap. -/
theorem pyJoin_length (L : List String) (h : L ≠ []) :
    (pyJoin "\n" L).length = (L.map String.length).sum + (L.length - 1) := by
  induction L with
  | nil => exact absurd rfl h
  | cons a rest ih =>
    cases rest with
    | nil => simp [pyJoin]
    | cons b r2 =>
      have hstep : pyJoin "\n" (a :: b :: r2) = a ++ "\n" ++ pyJoin "\n" (b :: r2) :=
        rfl
      have hnl : ("\n" : String).length = 1 := rfl
      rw [hstep, String.length_append, String.length_append, ih (by simp), hnl]
      simp [List.sum_cons]
      omega

/-- Helper: two newline joins with equal summed part lengths but one
more part cannot be equal. -/
theorem pyJoin_ne_of_lengths (L L' : List String) (h' : L' ≠ [])
    (hsum : (L.map String.length).sum = (L'.map String.length).sum)
    (hlen : L.length = L'.length + 1) :
    pyJoin "\n" L ≠ pyJoin "\n" L' := by
  intro hEq
  have hL : L ≠ [] := by
    intro h0
    rw [h0] at hlen
    simp at hlen
  have l1 := pyJoin_length L hL
  have l2 := pyJoin_length L' h'
  rw [hEq, l2] at l1
  have hnz : 0 < L'.length := List.length_pos.mpr h'
  omega

/-- C10: in `get_full_prompt`, a per-call override equal to the empty
string is treated as present and appended as an empty segment; so for
every composer state and override dict whose rendered parts list is
non-empty (in particular whenever some other segment renders non-empty),
supplying an empty-string override for a fragment-less section yields a
different prompt than supplying no entry for that section. -/
theorem c10_empty_override_changes_prompt (m : PMState)
    (extra : PromptSection → Option String) (s : PromptSection)
    (hfrag : (m.sec s).frags = [])
    (hnone : extra s = none)
    (hsome : promptParts m extra ≠ []) :
    get_full_prompt m (setExtra extra s (some "")) ≠ get_full_prompt m extra := by
  unfold get_full_prompt
  cases s <;>
    refine pyJoin_ne_of_lengths _ _ hsome ?_ ?_ <;>
    · unfold promptParts
      simp only [PromptSection.all, List.foldr, setExtra]
      simp [hnone]
      try omega

/-- Witness for C10 on a fresh composer with one pre-amble override. -/
theorem c10_empty_override_changes_prompt_witness :
    (initPM.sec .USER_INPUT).frags = []
      ∧ extra10 .USER_INPUT = none
      ∧ promptParts initPM extra10 ≠ []
      ∧ get_full_prompt initPM (setExtra extra10 .USER_INPUT (some ""))
          ≠ get_full_prompt initPM extra10 :=
  ⟨rfl, rfl, by decide,
    c10_empty_override_changes_prompt initPM extra10 .USER_INPUT rfl rfl
      (by decide)⟩

/-- Helper: `call_ai` mutates only the response/conversation/token
fields: the three history lists and the compaction threshold values are
untouched. -/
theorem call_ai_state_inv (st : Session) (prompt : String) (r : ClientResult) :
    (call_ai_state st prompt r).history_simple_summaries
        = st.history_simple_summaries
      ∧ (call_ai_state st prompt r).history_descriptions
        = st.history_descriptions
      ∧ (call_ai_state st prompt r).history_choices = st.history_choices
      ∧ (call_ai_state st prompt r).compressed_summary_textmin
        = st.compressed_summary_textmin
      ∧ (call_ai_state st prompt r).current_description
        = st.current_description
      ∧ (call_ai_state st prompt r).conclude_summary_cooldown
        = st.conclude_summary_cooldown
      ∧ (call_ai_state st prompt r).token_consumes = st.token_consumes
      ∧ (call_ai_state st prompt r).summary_conclude_val
        = st.summary_conclude_val := by
  unfold call_ai_state
  refine ⟨?_, ?_, ?_, ?_, ?_, ?_, ?_, ?_⟩ <;>
    (dsimp only; repeat' split) <;> rfl

/-- Helper: whenever the summary retry loop returns a summary, the
session it returns differs from its input only in the call-bookkeeping
fields. -/
theorem concludeLoop_got_inv (W : World) (prompt : String) :
    ∀ (stream : List ClientResult) (st : Session) (summ : String)
      (st3 : Session) (rest' : List ClientResult),
      concludeLoop W prompt st stream = .got summ st3 rest' →
      st3.history_simple_summaries = st.history_simple_summaries
        ∧ st3.history_descriptions = st.history_descriptions
        ∧ st3.history_choices = st.history_choices
        ∧ st3.compressed_summary_textmin = st.compressed_summary_textmin
        ∧ st3.current_description = st.current_description
        ∧ st3.token_consumes = st.token_consumes := by
  intro stream
  induction stream with
  | nil =>
    intro st summ st3 rest' h
    simp [concludeLoop] at h
  | cons r rest ih =>
    intro st summ st3 rest' h
    unfold concludeLoop at h
    split at h
    · injection h with h1 h2 h3
      subst h2
      obtain ⟨a1, a2, a3, a4, a5, a6⟩ := call_ai_state_inv st prompt r
      exact ⟨a1, a2, a3, a4, a5, a6.2.1⟩
    · have := ih (call_ai_state st prompt r) summ st3 rest' h
      obtain ⟨a1, a2, a3, a4, a5, a6⟩ := call_ai_state_inv st prompt r
      obtain ⟨b1, b2, b3, b4, b5, b6⟩ := this
      exact ⟨b1.trans a1, b2.trans a2, b3.trans a3, b4.trans a4, b5.trans a5,
        b6.trans a6.2.1⟩
    · exact absurd h (by simp)

/-- Helper: a successful token bump (lines 338/367) only rewrites the
last `token_consumes` entry. -/
theorem tokenBump_ok (st : Session) (rest : List ClientResult)
    (st' : Session) (rest' : List ClientResult)
    (h : tokenBump st rest = .ok st' rest') :
    st'.history_simple_summaries = st.history_simple_summaries
      ∧ st'.history_descriptions = st.history_descriptions
      ∧ st'.history_choices = st.history_choices
      ∧ st'.conclude_summary_cooldown = st.conclude_summary_cooldown
      ∧ st'.current_description = st.current_description
      ∧ rest' = rest := by
  unfold tokenBump at h
  split at h
  · exact absurd h (by simp)
  · injection h with h1 h2
    subst h1 h2
    simp

/-- Helper: whenever the compression strategy returns normally, the new
summaries list is the filter the code applies (non-empty and large)
followed by one new summary. -/
theorem conclude_compress_shape (W : World) (st : Session)
    (stream : List ClientResult) (st' : Session) (rest : List ClientResult)
    (h : conclude_compress W st stream = .ok st' rest) :
    ∃ summ, st'.history_simple_summaries
      = st.history_simple_summaries.filter
          (fun i => !i.isEmpty && st.compressed_summary_textmin ≤ i.length)
        ++ [summ] := by
  unfold conclude_compress at h
  cases stream with
  | nil => exact absurd h (by simp)
  | cons r rest0 =>
    dsimp only at h
    split at h
    · rename_i summ heq
      obtain ⟨b1, -, -, -, -, -⟩ := tokenBump_ok _ _ _ _ h
      obtain ⟨a1, -, -, a4, -⟩ :=
        call_ai_state_inv { st with max_tokens := 2048 }
          (get_full_prompt st.pm_summary (compressExtras st)) r
      exact ⟨summ, by rw [b1]; simp [compressResult, a1, a4]⟩
    · exact absurd h (by simp)
    · split at h
      · rename_i summ st3 rest' heq2
        obtain ⟨b1, -, -, -, -, -⟩ := tokenBump_ok _ _ _ _ h
        obtain ⟨c1, -, -, c4, -, -⟩ :=
          concludeLoop_got_inv W _ rest0 _ summ st3 rest' heq2
        obtain ⟨a1, -, -, a4, -⟩ :=
          call_ai_state_inv { st with max_tokens := 2048 }
            (get_full_prompt st.pm_summary (compressExtras st)) r
        refine ⟨summ, ?_⟩
        rw [b1]
        simp only [compressResult]
        simp [c1, c4, a1, a4]
      · exact absurd h (by simp)
      · exact absurd h (by simp)

/-- C6: whenever the compression strategy completes successfully, the
resulting summaries list is exactly the subsequence of large summaries
(length at or above `compressed_summary_textmin`), unchanged and in
order, followed by one new summary as the last element — stated as: the
result without its last element is that subsequence, and its length is
that subsequence's length plus one. -/
theorem c6_compression_preserves_large (W : World) (st : Session)
    (stream : List ClientResult) (st' : Session) (rest : List ClientResult)
    (hsel : usesDilution st = false)
    (hok : conclude_summary W st stream = .ok st' rest) :
    st'.history_simple_summaries.dropLast
        = st.history_simple_summaries.filter
            (fun i => st.compressed_summary_textmin ≤ i.length)
      ∧ st'.history_simple_summaries.length
        = (st.history_simple_summaries.filter
            (fun i => st.compressed_summary_textmin ≤ i.length)).length + 1 := by
  unfold conclude_summary at hok
  rw [hsel] at hok
  simp only [Bool.false_eq_true, if_false] at hok
  have hmin : 1 ≤ st.compressed_summary_textmin := by
    unfold usesDilution at hsel
    simp only [Bool.not_eq_false', List.any_eq_true, Bool.and_eq_true,
      decide_eq_true_eq] at hsel
    obtain ⟨i, hi, hne, hlt⟩ := hsel
    omega
  obtain ⟨summ, hshape⟩ := conclude_compress_shape W st stream st' rest hok
  have hfilter : st.history_simple_summaries.filter
      (fun i => !i.isEmpty && st.compressed_summary_textmin ≤ i.length)
      = st.history_simple_summaries.filter
          (fun i => decide (st.compressed_summary_textmin ≤ i.length)) := by
    apply List.filter_congr
    intro x _
    cases hE : x.isEmpty
    · simp
    · have hx0 : x.length = 0 := by
        rw [(String.isEmpty_iff x).mp hE]
        rfl
      simp [hx0]
      omega
  rw [hshape, hfilter]
  constructor
  · simp
  · simp

/-- Witness for C6 on the concrete state `ex6`. -/
theorem c6_compression_preserves_large_witness :
    usesDilution ex6 = false
      ∧ conclude_summary wSummaryNew ex6 [rSummaryNew]
          = .ok (okState (conclude_summary wSummaryNew ex6 [rSummaryNew])) []
      ∧ ((okState (conclude_summary wSummaryNew ex6 [rSummaryNew])).history_simple_summaries.dropLast
            = ex6.history_simple_summaries.filter
                (fun i => ex6.compressed_summary_textmin ≤ i.length)
          ∧ (okState (conclude_summary wSummaryNew ex6 [rSummaryNew])).history_simple_summaries.length
            = (ex6.history_simple_summaries.filter
                (fun i => ex6.compressed_summary_textmin ≤ i.length)).length + 1) :=
  ⟨by decide, by decide,
    c6_compression_preserves_large wSummaryNew ex6 [rSummaryNew]
      (okState (conclude_summary wSummaryNew ex6 [rSummaryNew])) []
      (by decide) (by decide)⟩

/-- C5: with threshold 24, cooldown 0, exactly 25 summaries all large,
and a first client answer whose summary parses, the next continuation
turn runs exactly one dilution compaction before processing the player's
action: `go_game` reduces to the turn body applied to the compacted
state, whose summaries list is `[newSummary] + summaries[10:]` of length
`16 = 1 + 15`, with the cooldown reset to 10. -/
theorem c5_dilution_scenario (W : World) (st : Session)
    (user_ipt newSumm : String) (r : ClientResult) (rest : List ClientResult)
    (h1 : st.summary_conclude_val = 24)
    (h2 : st.conclude_summary_cooldown = 0)
    (h3 : st.history_simple_summaries.length = 25)
    (h4 : ∀ s ∈ st.history_simple_summaries,
      st.compressed_summary_textmin ≤ s.length)
    (h5 : phase_summary W (call_ai_text r) = .got newSumm)
    (h6 : st.token_consumes ≠ []) :
    conclude_summary W st (r :: rest)
        = .ok (okState (conclude_summary W st (r :: rest))) rest
      ∧ go_game W st user_ipt false (r :: rest)
        = goTurnBody W (okState (conclude_summary W st (r :: rest))) user_ipt
            rest
      ∧ (okState (conclude_summary W st (r :: rest))).history_simple_summaries
        = newSumm :: st.history_simple_summaries.drop 10
      ∧ (okState (conclude_summary W st (r :: rest))).history_simple_summaries.length
        = 16
      ∧ (okState (conclude_summary W st (r :: rest))).conclude_summary_cooldown
        = 10 := by
  have hdil : usesDilution st = true := by
    unfold usesDilution
    simp only [Bool.not_eq_true']
    rw [List.any_eq_false]
    intro x hx
    have hx' := h4 x (List.dropLast_subset _ hx)
    simp only [Bool.and_eq_true, Bool.not_eq_true', decide_eq_true_eq, not_and]
    intro _
    omega
  have hstep : ∃ stq, conclude_summary W st (r :: rest) = .ok stq rest
      ∧ stq.history_simple_summaries
        = newSumm :: st.history_simple_summaries.drop 10
      ∧ stq.conclude_summary_cooldown = 10 := by
    unfold conclude_summary
    rw [hdil]
    rw [if_pos rfl]
    unfold conclude_dilution
    dsimp only
    rw [h5]
    dsimp only
    obtain ⟨a1, -, -, -, -, -, a7, -⟩ :=
      call_ai_state_inv { st with max_tokens := 20480 }
        (get_full_prompt st.pm_summary (dilutionExtras st)) r
    unfold tokenBump
    split
    · rename_i heqt
      simp only [dilutionResult] at heqt
      rw [a7] at heqt
      exact absurd heqt h6
    · refine ⟨_, rfl, ?_, ?_⟩
      · simp [dilutionResult, a1]
      · simp [dilutionResult]
  obtain ⟨stq, hq, hsum, hcool⟩ := hstep
  have hok : okState (conclude_summary W st (r :: rest)) = stq := by
    rw [hq]
    rfl
  refine ⟨?_, ?_, ?_, ?_, ?_⟩
  · rw [hok, hq]
  · unfold go_game
    simp only [Bool.false_eq_true, if_false]
    rw [if_pos ⟨by rw [h3, h1]; omega, by rw [h2]; norm_num⟩, hq]
    rfl
  · rw [hok]
    exact hsum
  · rw [hok, hsum]
    simp [h3]
  · rw [hok]
    exact hcool

/-- Witness for C5 on the concrete state `ex5`. -/
theorem c5_dilution_scenario_witness :
    ex5.summary_conclude_val = 24
      ∧ ex5.conclude_summary_cooldown = 0
      ∧ ex5.history_simple_summaries.length = 25
      ∧ (∀ s ∈ ex5.history_simple_summaries,
          ex5.compressed_summary_textmin ≤ s.length)
      ∧ phase_summary wSummaryNew (call_ai_text rSummaryNew) = .got "NEW"
      ∧ ex5.token_consumes ≠ []
      ∧ (conclude_summary wSummaryNew ex5 [rSummaryNew]
            = .ok (okState (conclude_summary wSummaryNew ex5 [rSummaryNew])) []
          ∧ go_game wSummaryNew ex5 "go" false [rSummaryNew]
            = goTurnBody wSummaryNew
                (okState (conclude_summary wSummaryNew ex5 [rSummaryNew])) "go"
                []
          ∧ (okState (conclude_summary wSummaryNew ex5 [rSummaryNew])).history_simple_summaries
            = "NEW" :: ex5.history_simple_summaries.drop 10
          ∧ (okState (conclude_summary wSummaryNew ex5 [rSummaryNew])).history_simple_summaries.length
            = 16
          ∧ (okState (conclude_summary wSummaryNew ex5 [rSummaryNew])).conclude_summary_cooldown
            = 10) :=
  ⟨by decide, by decide, by decide, by decide, by decide, by decide,
    c5_dilution_scenario wSummaryNew ex5 "go" "NEW" rSummaryNew []
      (by decide) (by decide) (by decide) (by decide) (by decide) (by decide)⟩

/-- Helper: `parse_ai_response` never touches the description or choice
histories, whatever its outcome. -/
theorem parse_ai_response_dc (W : World) (st : Session) (resp : String)
    (o : POutcome) (st' : Session)
    (h : parse_ai_response W st resp = (o, st')) :
    st'.history_descriptions = st.history_descriptions
      ∧ st'.history_choices = st.history_choices := by
  unfold parse_ai_response at h
  repeat' split at h
  any_goals (injection h with h1 h2; subst h2; simp)
  all_goals
    (dsimp only at h; split at h <;> (injection h with h1 h2; subst h2; simp))

/-- Helper: the parse retry loop preserves the description and choice
histories when it completes. -/
theorem goRetryLoop_done_dc (W : World) (prompt : String) :
    ∀ (stream : List ClientResult) (st st2 : Session)
      (rest : List ClientResult),
      goRetryLoop W prompt st stream = .done st2 rest →
      st2.history_descriptions = st.history_descriptions
        ∧ st2.history_choices = st.history_choices := by
  intro stream
  induction stream with
  | nil =>
    intro st st2 rest h
    simp [goRetryLoop] at h
  | cons r rest0 ih =>
    intro st st2 rest h
    unfold goRetryLoop at h
    dsimp only at h
    obtain ⟨-, a2, a3, -⟩ := call_ai_state_inv st prompt r
    split at h
    · obtain ⟨b2, b3⟩ := ih (call_ai_state st prompt r) st2 rest h
      exact ⟨b2.trans a2, b3.trans a3⟩
    · split at h
      · injection h with h1 h2
        subst h1
        rename_i heq
        obtain ⟨p2, p3⟩ := parse_ai_response_dc W _ _ _ _ heq
        exact ⟨p2.trans a2, p3.trans a3⟩
      · rename_i heq
        obtain ⟨p2, p3⟩ := parse_ai_response_dc W _ _ _ _ heq
        obtain ⟨b2, b3⟩ := ih _ st2 rest h
        exact ⟨(b2.trans p2).trans a2, (b3.trans p3).trans a3⟩
      · exact absurd h (by simp)
      · exact absurd h (by simp)

/-- Helper: the call phase of `go_game` preserves the description and
choice histories when it completes. -/
theorem goCallPhase_done_dc (W : World) (prompt : String)
    (stream : List ClientResult) (st st2 : Session)
    (rest : List ClientResult)
    (h : goCallPhase W prompt st stream = .done st2 rest) :
    st2.history_descriptions = st.history_descriptions
      ∧ st2.history_choices = st.history_choices := by
  cases stream with
  | nil => simp [goCallPhase] at h
  | cons r rest0 =>
    unfold goCallPhase at h
    dsimp only at h
    obtain ⟨-, a2, a3, -⟩ := call_ai_state_inv st prompt r
    split at h
    · injection h with h1 h2
      subst h1
      exact ⟨a2, a3⟩
    · split at h
      · injection h with h1 h2
        subst h1
        rename_i heq
        obtain ⟨p2, p3⟩ := parse_ai_response_dc W _ _ _ _ heq
        exact ⟨p2.trans a2, p3.trans a3⟩
      · rename_i heq
        obtain ⟨p2, p3⟩ := parse_ai_response_dc W _ _ _ _ heq
        obtain ⟨b2, b3⟩ := goRetryLoop_done_dc W prompt rest0 _ st2 rest h
        exact ⟨(b2.trans p2).trans a2, (b3.trans p3).trans a3⟩
      · exact absurd h (by simp)
      · exact absurd h (by simp)

/-- Helper: a completed turn body appends exactly one description and
exactly one choice. -/
theorem goTurnBody_ok_len (W : World) (st : Session) (user_ipt : String)
    (stream : List ClientResult) (st' : Session) (rest : List ClientResult)
    (h : goTurnBody W st user_ipt stream = .ok st' rest) :
    st'.history_descriptions.length = st.history_descriptions.length + 1
      ∧ st'.history_choices.length = st.history_choices.length + 1 := by
  unfold goTurnBody at h
  dsimp only at h
  split at h
  · exact absurd h (by simp)
  · split at h
    · exact absurd h (by simp)
    · split at h
      · exact absurd h (by simp)
      · split at h
        · injection h with h1 h2
          subst h1
          rename_i heq
          obtain ⟨c2, c3⟩ := goCallPhase_done_dc W _ _ st _ _ heq
          simp [goCommit, c2, c3]
        · exact absurd h (by simp)
        · exact absurd h (by simp)
        · exact absurd h (by simp)

/-- Helper: a normally-returning dilution pass preserves the description
and choice histories. -/
theorem conclude_dilution_ok_dc (W : World) (st : Session)
    (stream : List ClientResult) (st' : Session) (rest : List ClientResult)
    (h : conclude_dilution W st stream = .ok st' rest) :
    st'.history_descriptions = st.history_descriptions
      ∧ st'.history_choices = st.history_choices := by
  unfold conclude_dilution at h
  cases stream with
  | nil => exact absurd h (by simp)
  | cons r rest0 =>
    dsimp only at h
    obtain ⟨-, a2, a3, -⟩ :=
      call_ai_state_inv { st with max_tokens := 20480 }
        (get_full_prompt st.pm_summary (dilutionExtras st)) r
    split at h
    · obtain ⟨-, b2, b3, -⟩ := tokenBump_ok _ _ _ _ h
      refine ⟨?_, ?_⟩
      · rw [b2]; simp [dilutionResult]; exact a2
      · rw [b3]; simp [dilutionResult]; exact a3
    · exact absurd h (by simp)
    · split at h
      · rename_i summ st3 rest' heq2
        obtain ⟨-, c2, c3, -⟩ := concludeLoop_got_inv W _ rest0 _ summ st3 rest' heq2
        obtain ⟨-, b2, b3, -⟩ := tokenBump_ok _ _ _ _ h
        refine ⟨?_, ?_⟩
        · rw [b2]; simp [dilutionResult]; exact c2.trans a2
        · rw [b3]; simp [dilutionResult]; exact c3.trans a3
      · exact absurd h (by simp)
      · exact absurd h (by simp)

/-- Helper: a normally-returning compression pass preserves the
description and choice histories. -/
theorem conclude_compress_ok_dc (W : World) (st : Session)
    (stream : List ClientResult) (st' : Session) (rest : List ClientResult)
    (h : conclude_compress W st stream = .ok st' rest) :
    st'.history_descriptions = st.history_descriptions
      ∧ st'.history_choices = st.history_choices := by
  unfold conclude_compress at h
  cases stream with
  | nil => exact absurd h (by simp)
  | cons r rest0 =>
    dsimp only at h
    obtain ⟨-, a2, a3, -⟩ :=
      call_ai_state_inv { st with max_tokens := 2048 }
        (get_full_prompt st.pm_summary (compressExtras st)) r
    split at h
    · obtain ⟨-, b2, b3, -⟩ := tokenBump_ok _ _ _ _ h
      refine ⟨?_, ?_⟩
      · rw [b2]; simp [compressResult]; exact a2
      · rw [b3]; simp [compressResult]; exact a3
    · exact absurd h (by simp)
    · split at h
      · rename_i summ st3 rest' heq2
        obtain ⟨-, c2, c3, -⟩ := concludeLoop_got_inv W _ rest0 _ summ st3 rest' heq2
        obtain ⟨-, b2, b3, -⟩ := tokenBump_ok _ _ _ _ h
        refine ⟨?_, ?_⟩
        · rw [b2]; simp [compressResult]; exact c2.trans a2
        · rw [b3]; simp [compressResult]; exact c3.trans a3
      · exact absurd h (by simp)
      · exact absurd h (by simp)

/-- Helper: a normally-returning compaction pass preserves the
description and choice histories. -/
theorem conclude_summary_ok_dc (W : World) (st : Session)
    (stream : List ClientResult) (st' : Session) (rest : List ClientResult)
    (h : conclude_summary W st stream = .ok st' rest) :
    st'.history_descriptions = st.history_descriptions
      ∧ st'.history_choices = st.history_choices := by
  unfold conclude_summary at h
  split at h
  · exact conclude_dilution_ok_dc W st stream st' rest h
  · exact conclude_compress_ok_dc W st stream st' rest h

/-- Helper: every completed continuation turn appends exactly one
description and exactly one choice. -/
theorem go_game_ok_len (W : World) (st : Session) (user_ipt : String)
    (stream : List ClientResult) (st' : Session) (rest : List ClientResult)
    (h : go_game W st user_ipt false stream = .ok st' rest) :
    st'.history_descriptions.length = st.history_descriptions.length + 1
      ∧ st'.history_choices.length = st.history_choices.length + 1 := by
  unfold go_game at h
  rw [if_neg (by simp)] at h
  split at h
  · split at h
    · rename_i st1 rest1 heq
      obtain ⟨d2, d3⟩ := conclude_summary_ok_dc W st stream st1 rest1 heq
      obtain ⟨l1, l2⟩ := goTurnBody_ok_len W st1 user_ipt rest1 st' rest h
      rw [d2] at l1
      rw [d3] at l2
      exact ⟨l1, l2⟩
    · rename_i hne
      exact (hne st' rest h).elim
  · exact goTurnBody_ok_len W st user_ipt stream st' rest h

/-- Helper: the opening call loop of `start_game` preserves the
description and choice histories when it completes. -/
theorem startCallLoop_done_dc (W : World) (prompt : String) :
    ∀ (stream : List ClientResult) (st st2 : Session)
      (rest : List ClientResult),
      startCallLoop W prompt st stream = .done st2 rest →
      st2.history_descriptions = st.history_descriptions
        ∧ st2.history_choices = st.history_choices := by
  intro stream
  induction stream with
  | nil =>
    intro st st2 rest h
    simp [startCallLoop] at h
  | cons r rest0 ih =>
    intro st st2 rest h
    unfold startCallLoop at h
    dsimp only at h
    obtain ⟨-, a2, a3, -⟩ := call_ai_state_inv st prompt r
    split at h
    · obtain ⟨b2, b3⟩ := ih (call_ai_state st prompt r) st2 rest h
      exact ⟨b2.trans a2, b3.trans a3⟩
    · split at h
      · injection h with h1 h2
        subst h1
        rename_i heq
        obtain ⟨p2, p3⟩ := parse_ai_response_dc W _ _ _ _ heq
        exact ⟨p2.trans a2, p3.trans a3⟩
      · rename_i heq
        obtain ⟨p2, p3⟩ := parse_ai_response_dc W _ _ _ _ heq
        obtain ⟨b2, b3⟩ := goRetryLoop_done_dc W prompt rest0 _ st2 rest h
        exact ⟨(b2.trans p2).trans a2, (b3.trans p3).trans a3⟩
      · exact absurd h (by simp)
      · exact absurd h (by simp)

/-- Helper: a completed opening turn appends exactly one description and
no choice. -/
theorem start_game_ok_len (W : World) (st : Session) (story : String)
    (stream : List ClientResult) (st' : Session) (rest : List ClientResult)
    (h : start_game W st story stream = .ok st' rest) :
    st'.history_descriptions.length = st.history_descriptions.length + 1
      ∧ st'.history_choices = st.history_choices := by
  unfold start_game at h
  dsimp only at h
  split at h
  · injection h with h1 h2
    subst h1
    rename_i heq
    obtain ⟨c2, c3⟩ := startCallLoop_done_dc W _ stream st _ _ heq
    simp [startCommit, c2, c3]
  · exact absurd h (by simp)
  · exact absurd h (by simp)
  · exact absurd h (by simp)

/-- Helper: a run of completed continuation turns keeps the
one-more-description invariant. -/
theorem runGo_lenInv (W : World) :
    ∀ (turns : List (String × List ClientResult)) (st stF : Session),
      lenInv st → runGo W st turns = some stF → lenInv stF := by
  intro turns
  induction turns with
  | nil =>
    intro st stF hInv h
    injection h with h1
    subst h1
    exact hInv
  | cons t rest ih =>
    intro st stF hInv h
    unfold runGo at h
    split at h
    · rename_i st1 rest1 heq
      refine ih st1 stF ?_ h
      obtain ⟨l1, l2⟩ := go_game_ok_len W st t.1 t.2 st1 rest1 heq
      unfold lenInv at hInv ⊢
      omega
    · exact absurd h (by simp)

/-- C3: starting from a fresh session, for every sequence of successful
turns — one completed opening turn via `start_game` followed by any
number of completed continuation turns via `go_game` — the invariant
`len(historyDescriptions) = len(historyChoices) + 1` holds after the
opening turn and after the whole sequence (and hence, since `turns`
ranges over every prefix of any longer run, after each completed
turn). -/
theorem c3_history_one_ahead (W : World) (pmS pmC pmSum : PMState)
    (pname pstory cpre cbody cpost : String) (maxTok : Nat) (story : String)
    (stream0 : List ClientResult) (st1 : Session) (rest : List ClientResult)
    (turns : List (String × List ClientResult)) (stF : Session)
    (hstart : start_game W
        (initSession pmS pmC pmSum pname pstory cpre cbody cpost maxTok) story
        stream0
      = .ok st1 rest)
    (hrun : runGo W st1 turns = some stF) :
    lenInv st1 ∧ lenInv stF := by
  obtain ⟨l1, l2⟩ := start_game_ok_len W _ story stream0 st1 rest hstart
  have hInv1 : lenInv st1 := by
    unfold lenInv
    rw [l1, l2]
    simp [initSession]
  exact ⟨hInv1, runGo_lenInv W turns st1 stF hInv1 hrun⟩

/-- Witness for C3: a concrete opening turn plus one concrete
continuation turn with action `"open the door"`. -/
theorem c3_history_one_ahead_witness :
    start_game w3 init3 "" stream3a
        = .ok (okState (start_game w3 init3 "" stream3a)) []
      ∧ runGo w3 (okState (start_game w3 init3 "" stream3a))
          [("open the door", stream3b)]
        = some ((runGo w3 (okState (start_game w3 init3 "" stream3a))
            [("open the door", stream3b)]).getD baseSession)
      ∧ (lenInv (okState (start_game w3 init3 "" stream3a))
          ∧ lenInv ((runGo w3 (okState (start_game w3 init3 "" stream3a))
              [("open the door", stream3b)]).getD baseSession)) :=
  ⟨by decide, by decide,
    c3_history_one_ahead w3 initPM initPM initPM "p" "b" "" "" "" 512 ""
      stream3a (okState (start_game w3 init3 "" stream3a)) []
      [("open the door", stream3b)]
      ((runGo w3 (okState (start_game w3 init3 "" stream3a))
          [("open the door", stream3b)]).getD baseSession)
      (by decide) (by decide)⟩

/-- Helper: a successful dict lookup yields a stored binding. -/
theorem dictGet_mem (k : String) (d : List (String × PromptFragment))
    (f : PromptFragment) (h : dictGet k d = some f) : (k, f) ∈ d := by
  induction d with
  | nil => simp [dictGet] at h
  | cons p rest ih =>
    unfold dictGet at h
    split at h
    · rename_i heq
      injection h with h1
      subst h1
      have hk1 : p.1 = k := by simpa using heq
      have hp : (k, p.2) = p := by
        rw [← hk1]
      rw [hp]
      exact List.mem_cons_self p rest
    · right
      exact ih h

/-- Helper: membership equals a successful lookup. -/
theorem dictContains_iff (k : String) (d : List (String × PromptFragment)) :
    dictContains k d = true ↔ ∃ f, dictGet k d = some f := by
  induction d with
  | nil => simp [dictContains, dictGet]
  | cons p rest ih =>
    unfold dictContains dictGet
    unfold dictContains at ih
    by_cases hk : p.1 = k
    · have h1 : (p.1 == k) = true := by simpa using hk
      simp [h1]
    · have h1 : (p.1 == k) = false := by simpa using hk
      simp [h1, ih]

/-- Helper: a member of `dictPut k v d` is the new binding or an old
one. -/
theorem mem_dictPut (q : String × PromptFragment) (k : String)
    (v : PromptFragment) (d : List (String × PromptFragment))
    (h : q ∈ dictPut k v d) : q = (k, v) ∨ q ∈ d := by
  unfold dictPut at h
  split at h
  · rcases List.mem_map.mp h with ⟨p, hp, hq⟩
    split at hq
    · exact Or.inl hq.symm
    · exact Or.inr (hq ▸ hp)
  · rcases List.mem_append.mp h with hq | hq
    · exact Or.inr hq
    · simp at hq
      exact Or.inl hq

/-- Helper: `dictPut` always leaves its own key present. -/
theorem dictContains_dictPut_self (k : String) (v : PromptFragment)
    (d : List (String × PromptFragment)) :
    dictContains k (dictPut k v d) = true := by
  unfold dictPut
  split
  · rename_i hc
    unfold dictContains at hc ⊢
    rw [List.any_map]
    rcases List.any_eq_true.mp hc with ⟨p, hp, hpk⟩
    refine List.any_eq_true.mpr ⟨p, hp, ?_⟩
    simp only [Function.comp]
    split
    · simpa using rfl
    · rename_i hne
      exact absurd hpk (by simpa using hne)
  · unfold dictContains
    refine List.any_eq_true.mpr ⟨(k, v), by simp, by simp⟩

/-- Helper: `dictPut` keeps every previously present key present. -/
theorem dictContains_dictPut_mono (k' k : String) (v : PromptFragment)
    (d : List (String × PromptFragment)) (h : dictContains k' d = true) :
    dictContains k' (dictPut k v d) = true := by
  unfold dictPut
  split
  · unfold dictContains at h ⊢
    rw [List.any_map]
    rcases List.any_eq_true.mp h with ⟨p, hp, hpk⟩
    refine List.any_eq_true.mpr ⟨p, hp, ?_⟩
    simp only [Function.comp]
    split
    · rename_i hpk2
      have h1 : p.1 = k' := by simpa using hpk
      have h2 : p.1 = k := by simpa using hpk2
      simp [← h1, h2]
    · exact hpk
  · unfold dictContains at h ⊢
    rcases List.any_eq_true.mp h with ⟨p, hp, hpk⟩
    exact List.any_eq_true.mpr ⟨p, by simp [hp], hpk⟩

/-- Helper: deletion removes bindings only. -/
theorem mem_dictDel (q : String × PromptFragment) (k : String)
    (d : List (String × PromptFragment)) (h : q ∈ dictDel k d) : q ∈ d :=
  List.mem_of_mem_filter h

/-- Helper: deleting one key leaves the others' membership unchanged. -/
theorem dictContains_dictDel (k' k : String)
    (d : List (String × PromptFragment)) (h : k' ≠ k) :
    dictContains k' (dictDel k d) = dictContains k' d := by
  induction d with
  | nil => rfl
  | cons p rest ih =>
    unfold dictDel at ih ⊢
    unfold dictContains at ih ⊢
    by_cases hp : p.1 = k
    · have h1 : (p.1 == k) = true := by simpa using hp
      have h2 : (p.1 == k') = false := by
        refine beq_eq_false_iff_ne.mpr ?_
        rw [hp]
        exact fun hh => h hh.symm
      simp [h1, h2, ih]
    · have h1 : (p.1 == k) = false := by simpa using hp
      simp [h1, ih]

/-- Helper: the in-place content update keeps keys and protection
flags. -/
theorem mem_contentMap (d : List (String × PromptFragment)) (id c : String)
    (q : String × PromptFragment)
    (h : q ∈ d.map (fun p =>
      if p.1 == id then (p.1, { p.2 with content := c }) else p)) :
    ∃ p ∈ d, q.1 = p.1 ∧ q.2.is_system = p.2.is_system := by
  rcases List.mem_map.mp h with ⟨p, hp, hq⟩
  refine ⟨p, hp, ?_⟩
  subst hq
  split
  · exact ⟨rfl, rfl⟩
  · exact ⟨rfl, rfl⟩

/-- Helper: the in-place content update keeps membership unchanged. -/
theorem dictContains_contentMap (k : String)
    (d : List (String × PromptFragment)) (id c : String) :
    dictContains k (d.map (fun p =>
      if p.1 == id then (p.1, { p.2 with content := c }) else p))
      = dictContains k d := by
  unfold dictContains
  rw [List.any_map]
  congr 1
  funext p
  simp only [Function.comp]
  split
  · rfl
  · rfl

/-- Helper: reading back the section just written. -/
theorem sec_setSec_same (m : PMState) (s : PromptSection) (d : SectionData) :
    (m.setSec s d).sec s = d := by
  cases s <;> rfl

/-- Helper: writing one section leaves the others unchanged. -/
theorem sec_setSec_other (m : PMState) (s s' : PromptSection)
    (d : SectionData) (h : s' ≠ s) : (m.setSec s d).sec s' = m.sec s' := by
  cases s <;> cases s' <;> first | rfl | exact absurd rfl h

/-- Helper: inserting at a positive index keeps the head. -/
theorem head?_insertIdx (l : List String) (n : Nat) (x : String)
    (h : 1 ≤ n) : (l.insertIdx n x).head? = l.head? := by
  cases l with
  | nil =>
    cases n with
    | zero => omega
    | succ m => rfl
  | cons a rest =>
    cases n with
    | zero => omega
    | succ m => rfl

/-- Helper: inserting a fresh element keeps the order duplicate-free. -/
theorem nodup_insertIdx (l : List String) (n : Nat) (x : String)
    (hx : x ∉ l) (hl : l.Nodup) : (l.insertIdx n x).Nodup := by
  rcases le_or_lt n l.length with hle | hlt
  · exact ((List.perm_insertNth x l hle).nodup_iff).mpr (by simp [hl, hx])
  · rw [List.insertNth_of_length_lt l x n hlt]
    exact hl

/-- Helper: a member of an insertion is the new element or an old one. -/
theorem mem_insertIdx_sub (l : List String) (n : Nat) (x a : String)
    (h : a ∈ l.insertIdx n x) : a = x ∨ a ∈ l := by
  rcases le_or_lt n l.length with hle | hlt
  · exact (List.mem_insertIdx hle).mp h
  · rw [List.insertNth_of_length_lt l x n hlt] at h
    exact Or.inr h

/-- Helper: `pyIndex` of a non-head element is positive. -/
theorem pyIndex_pos (a t : String) (l : List String) (i : Nat)
    (hne : a ≠ t) (h : pyIndex (a :: l) t = some i) : 1 ≤ i := by
  unfold pyIndex at h
  rw [if_neg hne] at h
  rcases Option.map_eq_some'.mp h with ⟨i', -, hi⟩
  omega

/-- Helper: the section invariant implies the claim's rendered
protected-first property. -/
theorem protectedFirst_of_SecInv (sd : SectionData) (h : SecInv sd) :
    protectedFirstSec sd = true := by
  obtain ⟨hprot, hhead, hnd, hsub⟩ := h
  unfold protectedFirstSec
  rw [List.all_eq_true]
  intro id hid
  cases hg : dictGet id sd.frags with
  | none => simp
  | some f =>
    cases hf : f.is_system with
    | false => simp [hf]
    | true =>
      have hid' : id = "system" := hprot (id, f) (dictGet_mem _ _ _ hg) hf
      subst hid'
      have hmemo : "system" ∈ sd.order := by
        unfold renderIds at hid
        exact List.mem_of_mem_filter hid
      have hh := hhead hmemo
      simp only [hf, Bool.not_true, Bool.false_or]
      cases hord : sd.order with
      | nil =>
        rw [hord] at hmemo
        simp at hmemo
      | cons a rest =>
        rw [hord] at hh
        have ha : a = "system" := by simpa using hh
        subst ha
        have hcon : dictContains "system" sd.frags = true :=
          (dictContains_iff _ _).mpr ⟨f, hg⟩
        simp [renderIds, hord, List.filter_cons, hcon]

/-- Helper: the order-list conditions of `SecInv` survive inserting a
fresh non-`system` id at a positive position. -/
theorem orderProps_insertIdx (ord : List String)
    (frags' : List (String × PromptFragment)) (id : String) (n : Nat)
    (h1 : 1 ≤ n) (hnd : ord.Nodup) (hid : id ∉ ord) (hidsys : id ≠ "system")
    (hhead : "system" ∈ ord → ord.head? = some "system")
    (hsub : ∀ i ∈ ord, dictContains i frags' = true)
    (hidin : dictContains id frags' = true) :
    ("system" ∈ ord.insertIdx n id →
        (ord.insertIdx n id).head? = some "system")
      ∧ (ord.insertIdx n id).Nodup
      ∧ ∀ i ∈ ord.insertIdx n id, dictContains i frags' = true := by
  refine ⟨?_, nodup_insertIdx _ _ _ hid hnd, ?_⟩
  · intro hmem
    rcases mem_insertIdx_sub _ _ _ _ hmem with heq | hmem'
    · exact absurd heq.symm hidsys
    · rw [head?_insertIdx _ _ _ h1]
      exact hhead hmem'
  · intro i hi
    rcases mem_insertIdx_sub _ _ _ _ hi with rfl | hi'
    · exact hidin
    · exact hsub i hi'

/-- Helper: the order-list conditions of `SecInv` survive appending a
fresh non-`system` id. -/
theorem orderProps_append (ord : List String)
    (frags' : List (String × PromptFragment)) (id : String)
    (hnd : ord.Nodup) (hid : id ∉ ord) (hidsys : id ≠ "system")
    (hhead : "system" ∈ ord → ord.head? = some "system")
    (hsub : ∀ i ∈ ord, dictContains i frags' = true)
    (hidin : dictContains id frags' = true) :
    ("system" ∈ ord ++ [id] → (ord ++ [id]).head? = some "system")
      ∧ (ord ++ [id]).Nodup
      ∧ ∀ i ∈ ord ++ [id], dictContains i frags' = true := by
  refine ⟨?_, ?_, ?_⟩
  · intro hmem
    rcases List.mem_append.mp hmem with hmem' | hmem'
    · have hh := hhead hmem'
      cases ord with
      | nil => simp at hmem'
      | cons a rest => simpa using hh
    · simp at hmem'
      exact absurd hmem'.symm hidsys
  · rw [List.nodup_append]
    exact ⟨hnd, by simp, by simpa using hid⟩
  · intro i hi
    rcases List.mem_append.mp hi with hi' | hi'
    · exact hsub i hi'
    · simp at hi'
      subst hi'
      exact hidin

/-- Helper: a fresh manager satisfies the invariant. -/
theorem PMInv_init : PMInv initPM := by
  intro s
  cases s <;> exact ⟨by simp [initPM, PMState.sec], by simp [initPM, PMState.sec],
    by simp [initPM, PMState.sec], by simp [initPM, PMState.sec]⟩

/-- Helper: one step of `load_init_sections` preserves the invariant. -/
theorem PMInv_load_step (m : PMState) (sc : PromptSection × String)
    (h : PMInv m) :
    PMInv (m.setSec sc.1
      ⟨dictPut "system" ⟨"system", sc.2, true⟩ (m.sec sc.1).frags,
        ["system"]⟩) := by
  intro s'
  by_cases hss : s' = sc.1
  · subst hss
    rw [sec_setSec_same]
    refine ⟨?_, by simp, by simp, ?_⟩
    · intro q hq hsys
      rcases mem_dictPut q _ _ _ hq with rfl | hq'
      · rfl
      · exact (h sc.1).1 q hq' hsys
    · intro i hi
      simp at hi
      subst hi
      exact dictContains_dictPut_self _ _ _
  · rw [sec_setSec_other _ _ _ _ hss]
    exact h s'

/-- Helper: `load_init_sections` preserves the invariant. -/
theorem PMInv_load (cs : List (PromptSection × String)) :
    ∀ m : PMState, PMInv m → PMInv (load_init_sections m cs) := by
  induction cs with
  | nil =>
    intro m h
    exact h
  | cons sc rest ih =>
    intro m h
    unfold load_init_sections
    rw [List.foldl_cons]
    exact ih _ (PMInv_load_step m sc h)

/-- Helper: `add_prompt` preserves the invariant. -/
theorem PMInv_add (m : PMState) (s : PromptSection) (id c : String)
    (ia : Option String) (h : PMInv m) : PMInv (add_prompt m s id c ia).2 := by
  unfold add_prompt
  split
  · exact h
  · rename_i hidsys
    dsimp only
    split
    · intro s'
      by_cases hss : s' = s
      · subst hss
        rw [sec_setSec_same]
        refine ⟨?_, (h s').2.1, (h s').2.2.1, ?_⟩
        · intro q hq hsys
          obtain ⟨p, hp, hk, hsys'⟩ := mem_contentMap _ _ _ _ hq
          rw [hk]
          exact (h s').1 p hp (by rw [← hsys']; exact hsys)
        · intro i hi
          rw [dictContains_contentMap]
          exact (h s').2.2.2 i hi
      · rw [sec_setSec_other _ _ _ _ hss]
        exact h s'
    · rename_i hcon
      intro s'
      by_cases hss : s' = s
      · subst hss
        rw [sec_setSec_same]
        have hidord : id ∉ (m.sec s').order := by
          intro hmem
          exact hcon ((h s').2.2.2 id hmem)
        have hidin : dictContains id
            (dictPut id ⟨id, c, false⟩ (m.sec s').frags) = true :=
          dictContains_dictPut_self _ _ _
        have hsub' : ∀ i ∈ (m.sec s').order,
            dictContains i (dictPut id ⟨id, c, false⟩ (m.sec s').frags)
              = true :=
          fun i hi => dictContains_dictPut_mono _ _ _ _ ((h s').2.2.2 i hi)
        have hprot : ∀ p ∈ dictPut id ⟨id, c, false⟩ (m.sec s').frags,
            p.2.is_system = true → p.1 = "system" := by
          intro q hq hsys
          rcases mem_dictPut q _ _ _ hq with rfl | hq'
          · simp at hsys
          · exact (h s').1 q hq' hsys
        split
        · rename_i t
          split
          · obtain ⟨o1, o2, o3⟩ := orderProps_insertIdx (m.sec s').order _ id
              ((pyIndex (m.sec s').order t).getD 0 + 1)
              (by omega) (h s').2.2.1 hidord hidsys (h s').2.1 hsub' hidin
            exact ⟨hprot, o1, o2, o3⟩
          · obtain ⟨o1, o2, o3⟩ := orderProps_append (m.sec s').order _ id
              (h s').2.2.1 hidord hidsys (h s').2.1 hsub' hidin
            exact ⟨hprot, o1, o2, o3⟩
        · split
          · obtain ⟨o1, o2, o3⟩ := orderProps_insertIdx (m.sec s').order _ id 1
              (by omega) (h s').2.2.1 hidord hidsys (h s').2.1 hsub' hidin
            exact ⟨hprot, o1, o2, o3⟩
          · obtain ⟨o1, o2, o3⟩ := orderProps_append (m.sec s').order _ id
              (h s').2.2.1 hidord hidsys (h s').2.1 hsub' hidin
            exact ⟨hprot, o1, o2, o3⟩
      · rw [sec_setSec_other _ _ _ _ hss]
        exact h s'

/-- Helper: `remove_prompt` preserves the invariant. -/
theorem PMInv_remove (m : PMState) (s : PromptSection) (id : String)
    (h : PMInv m) : PMInv (remove_prompt m s id).2 := by
  unfold remove_prompt
  split
  · exact h
  · split
    · exact h
    · rename_i hidsys hcon
      dsimp only
      intro s'
      by_cases hss : s' = s
      · subst hss
        rw [sec_setSec_same]
        obtain ⟨p1, p2, p3, p4⟩ := h s'
        refine ⟨?_, ?_, p3.erase id, ?_⟩
        · intro q hq hsys
          exact p1 q (mem_dictDel _ _ _ hq) hsys
        · intro hmem
          have hmem' := (p3.mem_erase_iff.mp hmem).2
          have hneq : "system" ≠ id := fun hh => hidsys hh.symm
          have hh := p2 hmem'
          cases hord : (m.sec s').order with
          | nil =>
            rw [hord] at hmem'
            simp at hmem'
          | cons a rest =>
            rw [hord] at hh
            have ha : a = "system" := by simpa using hh
            subst ha
            rw [List.erase_cons_tail (by simpa using hneq)]
            rfl
        · intro i hi
          have h2 := p3.mem_erase_iff.mp hi
          rw [dictContains_dictDel _ _ _ h2.1]
          exact p4 i h2.2
      · rw [sec_setSec_other _ _ _ _ hss]
        exact h s'

/-- Helper: a normally-returning `move_prompt` preserves the
invariant. -/
theorem PMInv_move (m : PMState) (s : PromptSection) (id t : String)
    (b ok : Bool) (m' : PMState) (h : PMInv m)
    (hmv : move_prompt m s id t b = .ret ok m') : PMInv m' := by
  unfold move_prompt at hmv
  split at hmv
  · injection hmv with h1 h2
    subst h2
    exact h
  · split at hmv
    · injection hmv with h1 h2
      subst h2
      exact h
    · split at hmv
      · injection hmv with h1 h2
        subst h2
        exact h
      · split at hmv
        · injection hmv with h1 h2
          subst h2
          exact h
        · rename_i hidsys htb hidmem htmem
          dsimp only at hmv
          split at hmv
          · exact absurd hmv (by simp)
          · rename_i i hidx
            injection hmv with h1 h2
            subst h2
            intro s'
            by_cases hss : s' = s
            · subst hss
              rw [sec_setSec_same]
              obtain ⟨p1, p2, p3, p4⟩ := h s'
              have hidmem' : id ∈ (m.sec s').order := by simpa using hidmem
              have hidnotin : id ∉ (m.sec s').order.erase id := by
                intro hmm
                exact absurd rfl (p3.mem_erase_iff.mp hmm).1
              have herasesub : ∀ x, x ∈ (m.sec s').order.erase id →
                  x ∈ (m.sec s').order :=
                fun x hx => (p3.mem_erase_iff.mp hx).2
              refine ⟨p1, ?_, nodup_insertIdx _ _ _ hidnotin (p3.erase id),
                ?_⟩
              · intro hmem
                by_cases hsysmem : "system" ∈ (m.sec s').order
                · have hneq : ("system" : String) ≠ id :=
                    fun hh => hidsys hh.symm
                  have hh := p2 hsysmem
                  have hj : 1 ≤ (if b then i else i + 1) := by
                    by_cases hts : t = "system"
                    · have hb : b = false := by
                        cases hbv : b
                        · rfl
                        · exact absurd ⟨hts, rfl⟩ (hbv ▸ htb)
                      rw [hb]
                      simp
                    · cases hord : (m.sec s').order with
                      | nil =>
                        rw [hord] at hsysmem
                        simp at hsysmem
                      | cons a rest =>
                        rw [hord] at hh
                        have ha : a = "system" := by simpa using hh
                        subst ha
                        rw [hord] at hidx
                        rw [List.erase_cons_tail (by simpa using hneq)]
                          at hidx
                        have hi1 := pyIndex_pos "system" t _ i
                          (fun hh2 => hts hh2.symm) hidx
                        split <;> omega
                  rw [head?_insertIdx _ _ _ hj]
                  cases hord : (m.sec s').order with
                  | nil =>
                    rw [hord] at hsysmem
                    simp at hsysmem
                  | cons a rest =>
                    rw [hord] at hh
                    have ha : a = "system" := by simpa using hh
                    subst ha
                    rw [List.erase_cons_tail (by simpa using hneq)]
                    rfl
                · rcases mem_insertIdx_sub _ _ _ _ hmem with heq | hmem'
                  · exact absurd heq.symm hidsys
                  · exact absurd (herasesub _ hmem') hsysmem
              · intro x hx
                rcases mem_insertIdx_sub _ _ _ _ hx with heq | hx'
                · rw [heq]
                  exact p4 id hidmem'
                · exact p4 x (herasesub _ hx')
            · rw [sec_setSec_other _ _ _ _ hss]
              exact h s'

/-- Helper: `clear_section` preserves the invariant. -/
theorem PMInv_clear (m : PMState) (s : PromptSection) (h : PMInv m) :
    PMInv (clear_section m s) := by
  unfold clear_section
  split
  · intro s'
    by_cases hss : s' = s
    · subst hss
      rw [sec_setSec_same]
      refine ⟨?_, by simp, by simp, ?_⟩
      · intro q hq hsys
        simp at hq
        rw [hq]
      · intro i hi
        simp at hi
        subst hi
        simp [dictContains]
    · rw [sec_setSec_other _ _ _ _ hss]
      exact h s'
  · intro s'
    by_cases hss : s' = s
    · subst hss
      rw [sec_setSec_same]
      exact ⟨by simp, by simp, by simp, by simp⟩
    · rw [sec_setSec_other _ _ _ _ hss]
      exact h s'

/-- Helper: every state reachable through the mutating operations
satisfies the invariant. -/
theorem PMInv_reachable (m : PMState) (h : ReachablePM m) : PMInv m := by
  induction h with
  | init => exact PMInv_init
  | load m cs _ ih => exact PMInv_load cs m ih
  | add m s id c ia _ ih => exact PMInv_add m s id c ia ih
  | remove m s id _ ih => exact PMInv_remove m s id ih
  | move m s id t b ok m' _ hmv ih => exact PMInv_move m s id t b ok m' ih hmv
  | clear m s _ ih => exact PMInv_clear m s ih

/-- C8 fails on the code as stated: `from_dict` restores fragments in
exactly the order given, so a record listing a protected fragment after
a custom one deserializes to a state whose protected fragment is not
first in its section's render order. -/
theorem c8_counterexample :
    dictGet "system" ((from_dict c8data).sec .PRE_PROMPT).frags
        = some ⟨"system", "y", true⟩
      ∧ renderIds ((from_dict c8data).sec .PRE_PROMPT) = ["a", "system"]
      ∧ protectedFirstSec ((from_dict c8data).sec .PRE_PROMPT) = false
      ∧ protectedFirstPM (from_dict c8data) = false := by
  decide

/-- C8 amended: the protected `system` fragment can never be removed via
`remove_prompt` (the call returns an explicit refusal and changes
nothing) in any state; and in every state reachable through the mutating
public operations (`load_init_sections`, `add_prompt`, `remove_prompt`,
`move_prompt`, `clear_section`) from a fresh composer, whenever a
section contains a protected fragment it is first in that section's
render order.  Deserialization via `from_dict` restores the stored
order verbatim and guarantees this only if the record was ordered that
way. -/
theorem c8_protected_fragment_safety :
    (∀ (m : PMState) (s : PromptSection),
        remove_prompt m s "system" = (false, m))
      ∧ ∀ m : PMState, ReachablePM m → protectedFirstPM m = true := by
  constructor
  · intro m s
    unfold remove_prompt
    simp
  · intro m hm
    unfold protectedFirstPM
    rw [List.all_eq_true]
    intro s _
    exact protectedFirst_of_SecInv _ (PMInv_reachable m hm s)

/-- Witness for the amended C8 at the concrete reachable state `m8`. -/
theorem c8_protected_fragment_safety_witness :
    remove_prompt m8 .PRE_PROMPT "system" = (false, m8)
      ∧ protectedFirstPM m8 = true :=
  ⟨c8_protected_fragment_safety.1 m8 .PRE_PROMPT,
    c8_protected_fragment_safety.2 m8
      (ReachablePM.add _ .PRE_PROMPT "a" "x" none
        (ReachablePM.load _ [(.PRE_PROMPT, "sys")] ReachablePM.init))⟩

/-- Helper: one unfolding step of Python string `<`. -/
theorem lexLt_cons (c d : Char) (a b : Str) :
    lexLt (c :: a) (d :: b)
      = (if c < d then true else if d < c then false else lexLt a b) := rfl

/-- Helper: Python string `<` is irreflexive. -/
theorem lexLt_irrefl : ∀ s : Str, lexLt s s = false := by
  intro s
  induction s with
  | nil => rfl
  | cons c rest ih =>
    rw [lexLt_cons, if_neg (lt_irrefl c), if_neg (lt_irrefl c)]
    exact ih

/-- Helper: Python string `<` is asymmetric. -/
theorem lexLt_asymm : ∀ a b : Str, lexLt a b = true → lexLt b a = false := by
  intro a
  induction a with
  | nil =>
    intro b h
    cases b with
    | nil => simp [lexLt] at h
    | cons c rest => rfl
  | cons c rest ih =>
    intro b h
    cases b with
    | nil => simp [lexLt] at h
    | cons d brest =>
      rw [lexLt_cons] at h ⊢
      by_cases hcd : c < d
      · rw [if_neg (asymm hcd), if_pos hcd]
      · rw [if_neg hcd] at h
        by_cases hdc : d < c
        · rw [if_pos hdc] at h
          exact absurd h (by simp)
        · rw [if_neg hdc] at h
          rw [if_neg hdc, if_neg hcd]
          exact ih brest h

/-- Helper: Python string `<` is connex on distinct strings. -/
theorem lexLt_connex : ∀ a b : Str, a ≠ b →
    lexLt a b = true ∨ lexLt b a = true := by
  intro a
  induction a with
  | nil =>
    intro b h
    cases b with
    | nil => exact absurd rfl h
    | cons d brest => exact Or.inl rfl
  | cons c rest ih =>
    intro b h
    cases b with
    | nil => exact Or.inr rfl
    | cons d brest =>
      rw [lexLt_cons, lexLt_cons]
      rcases lt_trichotomy c d with hcd | hcd | hcd
      · left
        rw [if_pos hcd]
      · subst hcd
        have hne : rest ≠ brest := by
          intro hr
          exact h (by rw [hr])
        rw [if_neg (lt_irrefl c), if_neg (lt_irrefl c), if_neg (lt_irrefl c),
          if_neg (lt_irrefl c)]
        exact ih brest hne
      · right
        rw [if_pos hcd]

/-- Helper: Python string `<` is transitive. -/
theorem lexLt_trans : ∀ a b c : Str, lexLt a b = true → lexLt b c = true →
    lexLt a c = true := by
  intro a
  induction a with
  | nil =>
    intro b c hab hbc
    cases b with
    | nil => exact hbc
    | cons d brest =>
      cases c with
      | nil => simp [lexLt] at hbc
      | cons e crest => rfl
  | cons x rest ih =>
    intro b c hab hbc
    cases b with
    | nil => simp [lexLt] at hab
    | cons y brest =>
      cases c with
      | nil => simp [lexLt] at hbc
      | cons z crest =>
        rw [lexLt_cons] at hab hbc ⊢
        by_cases hxy : x < y
        · by_cases hyz : y < z
          · rw [if_pos (lt_trans hxy hyz)]
          · rw [if_neg hyz] at hbc
            by_cases hzy : z < y
            · rw [if_pos hzy] at hbc
              exact absurd hbc (by simp)
            · have hyzeq : y = z :=
                le_antisymm (not_lt.mp hzy) (not_lt.mp hyz)
              subst hyzeq
              rw [if_pos hxy]
        · rw [if_neg hxy] at hab
          by_cases hyx : y < x
          · rw [if_pos hyx] at hab
            exact absurd hab (by simp)
          · rw [if_neg hyx] at hab
            have hxyeq : x = y :=
              le_antisymm (not_lt.mp hyx) (not_lt.mp hxy)
            subst hxyeq
            by_cases hxz : x < z
            · rw [if_pos hxz]
            · rw [if_neg hxz] at hbc ⊢
              by_cases hzx : z < x
              · rw [if_pos hzx] at hbc
                exact absurd hbc (by simp)
              · rw [if_neg hzx] at hbc ⊢
                exact ih brest crest hab hbc

/-- Helper: a shared left part cancels in Python string `<`. -/
theorem lexLt_append_left : ∀ (xs a b : Str),
    lexLt (xs ++ a) (xs ++ b) = lexLt a b := by
  intro xs
  induction xs with
  | nil => intro a b; rfl
  | cons c rest ih =>
    intro a b
    show lexLt (c :: (rest ++ a)) (c :: (rest ++ b)) = lexLt a b
    rw [lexLt_cons, if_neg (lt_irrefl c), if_neg (lt_irrefl c)]
    exact ih a b

/-- Helper: a shared right part cancels in Python string `<` when the
left parts have equal length. -/
theorem lexLt_append_right : ∀ (a b zs : Str), a.length = b.length →
    lexLt (a ++ zs) (b ++ zs) = lexLt a b := by
  intro a
  induction a with
  | nil =>
    intro b zs hlen
    cases b with
    | nil => simp [lexLt_irrefl]
    | cons d brest => simp at hlen
  | cons c rest ih =>
    intro b zs hlen
    cases b with
    | nil => simp at hlen
    | cons d brest =>
      show lexLt (c :: (rest ++ zs)) (d :: (brest ++ zs))
          = lexLt (c :: rest) (d :: brest)
      rw [lexLt_cons, lexLt_cons]
      by_cases hcd : c < d
      · rw [if_pos hcd, if_pos hcd]
      · rw [if_neg hcd, if_neg hcd]
        by_cases hdc : d < c
        · rw [if_pos hdc, if_pos hdc]
        · rw [if_neg hdc, if_neg hdc]
          exact ih brest zs (by simpa using hlen)

/-- Helper: every string starts with itself followed by anything. -/
theorem pyStarts_append_self : ∀ (xs ys : Str), pyStarts xs (xs ++ ys) = true := by
  intro xs
  induction xs with
  | nil => intro ys; rfl
  | cons c rest ih =>
    intro ys
    show (c == c && pyStarts rest (rest ++ ys)) = true
    simp [ih]

/-- Helper: a shared left part cancels in `startswith`. -/
theorem pyStarts_append_cancel : ∀ (xs a b : Str),
    pyStarts (xs ++ a) (xs ++ b) = pyStarts a b := by
  intro xs
  induction xs with
  | nil => intro a b; rfl
  | cons c rest ih =>
    intro a b
    show (c == c && pyStarts (rest ++ a) (rest ++ b)) = pyStarts a b
    simp [ih]

/-- Helper: a digit is not a given non-digit character. -/
theorem digit_beq_false (c x : Char) (hd : c.isDigit = true)
    (hx : x.isDigit = false) : (c == x) = false := by
  cases hbe : (c == x)
  · rfl
  · have : c = x := by simpa using hbe
    rw [this] at hd
    rw [hd] at hx
    exact absurd hx (by simp)

/-- Helper: one non-matching step of the replace scanner. -/
theorem pyReplaceAux_step_no (pat rep : Str) (c : Char) (rest : Str)
    (fuel : Nat) (h : pyStarts pat (c :: rest) = false) :
    pyReplaceAux pat rep (fuel + 1) (c :: rest)
      = c :: pyReplaceAux pat rep fuel rest := by
  rw [pyReplaceAux.eq_def]
  dsimp only
  rw [h]
  simp

/-- Helper: one matching step of the replace scanner. -/
theorem pyReplaceAux_step_hit (p0 : Char) (pr rep : Str) (fuel : Nat)
    (ys : Str) :
    pyReplaceAux (p0 :: pr) rep (fuel + 1) ((p0 :: pr) ++ ys)
      = rep ++ pyReplaceAux (p0 :: pr) rep fuel ys := by
  have h1 : pyStarts (p0 :: pr) (p0 :: (pr ++ ys)) = true :=
    pyStarts_append_self (p0 :: pr) ys
  show pyReplaceAux (p0 :: pr) rep (fuel + 1) (p0 :: (pr ++ ys)) = _
  rw [pyReplaceAux.eq_def]
  dsimp only
  rw [h1]
  rw [show ((p0 :: pr : Str).length - 1) = pr.length by simp]
  rw [List.drop_left]
  simp

/-- Helper: the replace scanner walks past characters that do not open
the pattern. -/
theorem pyReplaceAux_skip (p0 : Char) (pr rep : Str) :
    ∀ (xs : Str), (∀ c ∈ xs, (c == p0) = false) →
      ∀ (fuel : Nat) (ys : Str),
        pyReplaceAux (p0 :: pr) rep (xs.length + fuel) (xs ++ ys)
          = xs ++ pyReplaceAux (p0 :: pr) rep fuel ys := by
  intro xs
  induction xs with
  | nil =>
    intro hno fuel ys
    simp
  | cons c rest ih =>
    intro hno fuel ys
    have hcp : (p0 == c) = false := by
      have h1 := hno c (by simp)
      cases hbe : (p0 == c)
      · rfl
      · have hpc : p0 = c := by simpa using hbe
        rw [hpc, beq_self_eq_true] at h1
        exact absurd h1 (by simp)
    have hnostart : pyStarts (p0 :: pr) (c :: (rest ++ ys)) = false := by
      rw [show pyStarts (p0 :: pr) (c :: (rest ++ ys))
          = (p0 == c && pyStarts pr (rest ++ ys)) from rfl]
      rw [hcp]
      simp
    have harith : (c :: rest).length + fuel = rest.length + fuel + 1 := by
      simp [List.length_cons]
      omega
    rw [harith]
    show pyReplaceAux (p0 :: pr) rep (rest.length + fuel + 1)
        (c :: (rest ++ ys)) = c :: rest ++ pyReplaceAux (p0 :: pr) rep fuel ys
    rw [pyReplaceAux_step_no _ _ _ _ _ hnostart]
    rw [ih (fun d hd => hno d (by simp [hd])) fuel ys]
    rfl

/-- Helper: splitting a separator-free string. -/
theorem pySplit_no_sep (sep : Char) :
    ∀ (xs : Str), (∀ c ∈ xs, (c == sep) = false) →
      pySplitChar sep xs = [xs] := by
  intro xs
  induction xs with
  | nil => intro h; rfl
  | cons c rest ih =>
    intro h
    rw [pySplitChar.eq_def]
    dsimp only
    rw [h c (by simp)]
    simp only [Bool.false_eq_true, if_false]
    rw [ih (fun d hd => h d (by simp [hd]))]

/-- Helper: splitting at the first separator occurrence. -/
theorem pySplit_append (sep : Char) :
    ∀ (xs : Str), (∀ c ∈ xs, (c == sep) = false) → ∀ (ys : Str),
      pySplitChar sep (xs ++ sep :: ys) = xs :: pySplitChar sep ys := by
  intro xs
  induction xs with
  | nil =>
    intro h ys
    show pySplitChar sep (sep :: ys) = [] :: pySplitChar sep ys
    rw [pySplitChar.eq_def]
    dsimp only
    rw [beq_self_eq_true]
    simp
  | cons c rest ih =>
    intro h ys
    show pySplitChar sep (c :: (rest ++ sep :: ys)) = _
    rw [pySplitChar.eq_def]
    dsimp only
    rw [h c (by simp)]
    simp only [Bool.false_eq_true, if_false]
    rw [ih (fun d hd => h d (by simp [hd])) ys]

/-- Helper: equality tests on characters are symmetric in falsehood. -/
theorem beq_symm_false (a b : Char) (h : (a == b) = false) :
    (b == a) = false := by
  cases hbe : (b == a)
  · rfl
  · have hba : b = a := by simpa using hbe
    rw [hba, beq_self_eq_true] at h
    exact absurd h (by simp)

/-- Helper: decomposition of a well-formed timestamp into its digit
blocks. -/
theorem validTS_shape (ts : Str) (h : validTS ts = true) :
    ts = ts.take 8 ++ '_' :: ts.drop 9
      ∧ (ts.take 8).length = 8
      ∧ (ts.drop 9).length = 6
      ∧ (∀ c ∈ ts.take 8, c.isDigit = true)
      ∧ (∀ c ∈ ts.drop 9, c.isDigit = true) := by
  unfold validTS pyIsdigitStr at h
  simp only [Bool.and_eq_true, beq_iff_eq, List.all_eq_true,
    Bool.not_eq_true', List.isEmpty_eq_false] at h
  obtain ⟨⟨⟨hlen, -, hd8⟩, hu⟩, -, hd6⟩ := h
  have hlt : 8 < ts.length := by omega
  have h2 : ts.drop 8 = ts[8] :: ts.drop 9 := List.drop_eq_getElem_cons hlt
  have h3 : ts[8] = '_' := by
    have := hu
    rw [List.get?_eq_getElem?, List.getElem?_eq_getElem hlt] at this
    simpa using this
  refine ⟨?_, ?_, ?_, hd8, hd6⟩
  · conv_lhs => rw [← List.take_append_drop 8 ts]
    rw [h2, h3]
  · rw [List.length_take]
    omega
  · rw [List.length_drop]
    omega

/-- Helper: no character of the name part of an autosave record equals
a given non-digit, non-underscore, non-letter-of-`autosave`
character — specialised to `.` below. -/
theorem front_no_dot (ts : Str) (h : validTS ts = true) :
    ∀ c ∈ autoPre ++ '_' :: ts, (c == '.') = false := by
  obtain ⟨hshape, -, -, hd8, hd6⟩ := validTS_shape ts h
  have hap : ∀ x ∈ autoPre, (x == '.') = false := by decide
  intro c hc
  rcases List.mem_append.mp hc with hc' | hc'
  · exact hap c hc'
  · rcases List.mem_cons.mp hc' with rfl | hc''
    · decide
    · rw [hshape] at hc''
      rcases List.mem_append.mp hc'' with hc3 | hc3
      · exact digit_beq_false _ _ (hd8 c hc3) (by decide)
      · rcases List.mem_cons.mp hc3 with rfl | hc4
        · decide
        · exact digit_beq_false _ _ (hd6 c hc4) (by decide)

/-- Helper: stripping `.json` from a dot-free name followed by
`.json.gz` leaves the name followed by `.gz`. -/
theorem replace_strip_tail (front : Str)
    (hf : ∀ c ∈ front, (c == '.') = false) :
    pyReplaceStr (front ++ (jsonSuf ++ gzSuf)) jsonSuf [] = front ++ gzSuf := by
  unfold pyReplaceStr
  rw [if_neg (by decide)]
  rw [show (front ++ (jsonSuf ++ gzSuf)).length = front.length + 8 by
    simp [jsonSuf, gzSuf]]
  rw [show jsonSuf = ('.' :: ['j', 's', 'o', 'n'] : Str) from rfl]
  rw [pyReplaceAux_skip '.' ['j', 's', 'o', 'n'] [] front hf 8 _]
  rw [show pyReplaceAux ['.', 'j', 's', 'o', 'n'] [] 8
    (['.', 'j', 's', 'o', 'n'] ++ gzSuf) = gzSuf from by decide]

/-- Helper: stripping `.gz` from a dot-free name followed by `.gz`
leaves the name. -/
theorem replace_strip_gz (front : Str)
    (hf : ∀ c ∈ front, (c == '.') = false) :
    pyReplaceStr (front ++ gzSuf) gzSuf [] = front := by
  unfold pyReplaceStr
  rw [if_neg (by decide)]
  rw [show (front ++ gzSuf).length = front.length + 3 by simp [gzSuf]]
  rw [show gzSuf = ('.' :: ['g', 'z'] : Str) from rfl]
  rw [pyReplaceAux_skip '.' ['g', 'z'] [] front hf 3 _]
  rw [show pyReplaceAux ('.' :: ['g', 'z']) [] 3 ('.' :: ['g', 'z']) = []
    from by decide]
  simp

/-- Helper: splitting a stripped autosave name at underscores yields the
label and the two digit blocks. -/
theorem split_front (d t6 : Str) (hd : ∀ c ∈ d, (c == '_') = false)
    (ht : ∀ c ∈ t6, (c == '_') = false) :
    pySplitChar '_' (autoPre ++ '_' :: (d ++ '_' :: t6)) = [autoPre, d, t6] := by
  rw [pySplit_append '_' autoPre (by decide) _]
  rw [pySplit_append '_' d hd _]
  rw [pySplit_no_sep '_' t6 ht]

/-- Helper: on a well-formed autosave record name, the timestamp scan
falls back to the whole name (no `_`-separated part has length 15), so
the sort key is the file name itself. -/
theorem get_file_timestamp_autoName (ts : Str) (h : validTS ts = true) :
    get_file_timestamp (autoName ts) = autoName ts := by
  obtain ⟨hshape, hl8, hl6, hd8, hd6⟩ := validTS_shape ts h
  have hfront := front_no_dot ts h
  have hnud : ∀ c ∈ ts.take 8, (c == '_') = false :=
    fun c hc => digit_beq_false _ _ (hd8 c hc) (by decide)
  have hnut : ∀ c ∈ ts.drop 9, (c == '_') = false :=
    fun c hc => digit_beq_false _ _ (hd6 c hc) (by decide)
  unfold get_file_timestamp
  have e1 : autoName ts = (autoPre ++ '_' :: ts) ++ (jsonSuf ++ gzSuf) := by
    unfold autoName
    rw [show jsonGzSuf = jsonSuf ++ gzSuf from rfl]
  rw [e1, replace_strip_tail _ hfront, replace_strip_gz _ hfront]
  have e2 : pySplitChar '_' (autoPre ++ '_' :: ts)
      = [autoPre, ts.take 8, ts.drop 9] := by
    conv_lhs => rw [hshape]
    exact split_front _ _ hnud hnut
  rw [e2]
  have hfind : tsCandidate [autoPre, ts.take 8, ts.drop 9] = none := by
    unfold tsCandidate
    simp only [List.find?]
    rw [show ((autoPre.length == 15 && pyIsdigitStr (autoPre.take 8)
        && pyIsdigitStr (autoPre.drop 9)) = false) from by decide]
    rw [show (((ts.take 8).length == 15)) = false from by
      rw [hl8]; decide]
    rw [show (((ts.drop 9).length == 15)) = false from by
      rw [hl6]; decide]
    simp
  rw [hfind]
  rfl

/-- Helper: `startswith` fails on a head mismatch. -/
theorem pyStarts_head_ne (a b : Char) (as bs : Str) (h : (a == b) = false) :
    pyStarts (a :: as) (b :: bs) = false := by
  show (a == b && pyStarts as bs) = false
  rw [h, Bool.false_and]

/-- Helper: a well-formed timestamp has length 15. -/
theorem validTS_length (ts : Str) (h : validTS ts = true) : ts.length = 15 := by
  unfold validTS at h
  simp only [Bool.and_eq_true, beq_iff_eq] at h
  exact h.1.1.1

/-- Helper: every autosave record name passes the directory filter of
`manage_auto_saves`: right label prefix, not a manual save, not the
latest pointer, and a `.json.gz` ending. -/
theorem isAutoSaveFile_autoName (ts : Str) (h : validTS ts = true) :
    isAutoSaveFile autoPre (autoName ts) = true := by
  obtain ⟨hshape, hl8, hl6, hd8, hd6⟩ := validTS_shape ts h
  have e : (autoName ts).reverse
      = ['z', 'g', '.', 'n', 'o', 's', 'j', '.'] ++ (autoPre ++ '_' :: ts).reverse := by
    rw [show autoName ts = (autoPre ++ '_' :: ts) ++ jsonGzSuf from by simp [autoName]]
    rw [List.reverse_append]
    congr 1
  have h1 : pyStarts autoPre (autoName ts) = true :=
    pyStarts_append_self autoPre ('_' :: (ts ++ jsonGzSuf))
  have h2 : pyStarts manualPre (autoName ts) = false :=
    pyStarts_head_ne 'm' 'a' ['a', 'n', 'u', 'a', 'l', '_']
      (['u', 't', 'o', 's', 'a', 'v', 'e'] ++ ('_' :: (ts ++ jsonGzSuf)))
      (by decide)
  have h3 : pyEnds latestJsonSuf (autoName ts) = false := by
    unfold pyEnds
    rw [e]
    rw [show latestJsonSuf.reverse
      = 'n' :: ['o', 's', 'j', '.', 't', 's', 'e', 't', 'a', 'l', '_'] from rfl]
    rw [show (['z', 'g', '.', 'n', 'o', 's', 'j', '.'] ++ (autoPre ++ '_' :: ts).reverse : Str)
      = 'z' :: (['g', '.', 'n', 'o', 's', 'j', '.'] ++ (autoPre ++ '_' :: ts).reverse)
      from rfl]
    exact pyStarts_head_ne _ _ _ _ (by decide)
  have h4 : pyEnds latestJsonGzSuf (autoName ts) = false := by
    unfold pyEnds
    rw [e]
    rw [show latestJsonGzSuf.reverse
      = ['z', 'g', '.', 'n', 'o', 's', 'j', '.'] ++ ['t', 's', 'e', 't', 'a', 'l', '_']
      from rfl]
    rw [pyStarts_append_cancel]
    have e2 : (autoPre ++ '_' :: ts).reverse = ts.reverse ++ ('_' :: autoPre.reverse) := by
      simp
    have e3 : ts.reverse = (ts.drop 9).reverse ++ ('_' :: (ts.take 8).reverse) := by
      conv_lhs => rw [hshape]
      simp
    cases hrev : (ts.drop 9).reverse with
    | nil =>
      have : (ts.drop 9).reverse.length = 6 := by rw [List.length_reverse, hl6]
      rw [hrev] at this
      exact absurd this (by decide)
    | cons d rest =>
      have hdmem : d ∈ (ts.drop 9).reverse := by
        rw [hrev]; exact List.mem_cons_self _ _
      have hdig : d.isDigit = true := hd6 d (List.mem_reverse.mp hdmem)
      rw [e2, e3, hrev, List.cons_append, List.cons_append]
      exact pyStarts_head_ne 't' d _ _
        (beq_symm_false _ _ (digit_beq_false d 't' hdig (by decide)))
  have h5 : pyEnds jsonGzSuf (autoName ts) = true := by
    unfold pyEnds
    rw [e]
    exact pyStarts_append_self ['z', 'g', '.', 'n', 'o', 's', 'j', '.'] _
  unfold isAutoSaveFile
  rw [h1, h2, h3, h4, h5]
  simp

/-- Helper: the comparison key preserves the lexicographic order of
same-length embedded timestamps. -/
theorem lexLt_autoName (a b : Str) (ha : a.length = 15) (hb : b.length = 15) :
    lexLt (autoName a) (autoName b) = lexLt a b := by
  have e1 : autoName a = (autoPre ++ ['_']) ++ (a ++ jsonGzSuf) := by simp [autoName]
  have e2 : autoName b = (autoPre ++ ['_']) ++ (b ++ jsonGzSuf) := by simp [autoName]
  rw [e1, e2, lexLt_append_left, lexLt_append_right a b jsonGzSuf (by rw [ha, hb])]

/-- Helper: distinct timestamps give distinct autosave record names. -/
theorem autoName_ne (a b : Str) (ha : a.length = 15) (hb : b.length = 15)
    (hne : a ≠ b) : autoName a ≠ autoName b := by
  intro he
  have h2 := lexLt_autoName a b ha hb
  rw [he, lexLt_irrefl] at h2
  rcases lexLt_connex a b hne with hlt | hlt
  · rw [hlt] at h2
    exact absurd h2 (by decide)
  · have h3 := lexLt_autoName b a hb ha
    rw [← he, lexLt_irrefl] at h3
    rw [hlt] at h3
    exact absurd h3 (by decide)

/-- Helper: in a strictly increasing list, an element is among those
dropped by `take (length - k)` exactly when at least `k` strictly
larger elements are present. -/
theorem mem_take_iff_count (lt : Str → Str → Bool)
    (hirr : ∀ x, lt x x = false)
    (hasym : ∀ x y, lt x y = true → lt y x = false) :
    ∀ (s : List Str), s.Pairwise (fun x y => lt x y = true) → ∀ (k : Nat),
      ∀ x ∈ s,
      (x ∈ s.take (s.length - k) ↔ k ≤ (s.filter (fun y => lt x y)).length) := by
  intro s
  induction s with
  | nil => intro _ k x hx; exact absurd hx (List.not_mem_nil x)
  | cons a rest ih =>
    intro hp k x hx
    have hpa : ∀ y ∈ rest, lt a y = true := (List.pairwise_cons.mp hp).1
    have hpr : rest.Pairwise (fun x y => lt x y = true) :=
      (List.pairwise_cons.mp hp).2
    rcases List.mem_cons.mp hx with rfl | hxr
    · have hfa : (x :: rest).filter (fun y => lt x y)
          = rest.filter (fun y => lt x y) := by
        rw [List.filter_cons, hirr x]
        simp
      have hfr : rest.filter (fun y => lt x y) = rest :=
        List.filter_eq_self.mpr (fun y hy => hpa y hy)
      rw [hfa, hfr]
      constructor
      · intro hmem
        by_contra hk
        push_neg at hk
        have hz : (x :: rest).length - k = 0 := by
          simp only [List.length_cons]
          omega
        rw [hz] at hmem
        exact absurd hmem (List.not_mem_nil x)
      · intro hk
        have hs : (x :: rest).length - k = ((x :: rest).length - k - 1) + 1 := by
          simp only [List.length_cons]
          omega
        rw [hs, List.take_succ_cons]
        exact List.mem_cons_self _ _
    · have hax : lt a x = true := hpa x hxr
      have hxa : lt x a = false := hasym a x hax
      have hxna : x ≠ a := by
        intro he
        rw [he, hirr a] at hax
        exact absurd hax (by decide)
      have hfa : (a :: rest).filter (fun y => lt x y)
          = rest.filter (fun y => lt x y) := by
        rw [List.filter_cons, hxa]
        simp
      rw [hfa]
      cases k with
      | zero =>
        simp only [Nat.sub_zero]
        rw [List.take_length]
        constructor
        · intro _; exact Nat.zero_le _
        · intro _; exact hx
      | succ k' =>
        have harith : (a :: rest).length - (k' + 1) = rest.length - k' := by
          simp only [List.length_cons]
          omega
        rw [harith]
        cases hrk : rest.length - k' with
        | zero =>
          simp only [List.take_zero]
          constructor
          · intro hm; exact absurd hm (List.not_mem_nil x)
          · intro hk
            have hle : (rest.filter (fun y => lt x y)).length ≤ rest.length :=
              List.length_filter_le _ _
            omega
        | succ m =>
          rw [List.take_succ_cons]
          have hih := ih hpr (k' + 1) x hxr
          have hmeq : rest.length - (k' + 1) = m := by omega
          constructor
          · intro hm
            rcases List.mem_cons.mp hm with he | hm'
            · exact absurd he hxna
            · have hm2 : x ∈ rest.take (rest.length - (k' + 1)) := by
                rw [hmeq]
                exact hm'
              exact hih.mp hm2
          · intro hk
            have hm2 := hih.mpr hk
            rw [hmeq] at hm2
            exact List.mem_cons_of_mem _ hm2

/-- Helper: the Python sort comparison on timestamp keys is total. -/
theorem keyLE_total : ∀ a b : Str, keyLE a b ∨ keyLE b a := by
  intro a b
  unfold keyLE
  cases h : lexLt (get_file_timestamp b) (get_file_timestamp a) with
  | false => exact Or.inl rfl
  | true => exact Or.inr (lexLt_asymm _ _ h)

/-- Helper: the Python sort comparison on timestamp keys is transitive. -/
theorem keyLE_trans : ∀ a b c : Str, keyLE a b → keyLE b c → keyLE a c := by
  intro a b c hab hbc
  unfold keyLE at hab hbc ⊢
  cases hca : lexLt (get_file_timestamp c) (get_file_timestamp a) with
  | false => rfl
  | true =>
    exfalso
    by_cases he : get_file_timestamp b = get_file_timestamp c
    · rw [← he] at hca
      rw [hca] at hab
      exact absurd hab (by decide)
    · rcases lexLt_connex _ _ he with h | h
      · have h2 := lexLt_trans _ _ _ h hca
        rw [h2] at hab
        exact absurd hab (by decide)
      · rw [h] at hbc
        exact absurd hbc (by decide)

/-- C9: autosave retention.  When a session's directory holds autosave
records `autosave_{ts}.json.gz` for distinct well-formed timestamps and
more than 5 of them, `manage_auto_saves` deletes exactly the records
with at least 5 strictly more recent timestamps (keeping the 5 most
recent), never touches a file that fails the autosave filter — in
particular manual saves (prefix `manual_`) and the latest pointer never
pass the filter, so retention never deletes them. -/
theorem c9_retention (files tss : List Str)
    (hfilter : files.filter (fun f => isAutoSaveFile autoPre f) = tss.map autoName)
    (hvalid : ∀ ts ∈ tss, validTS ts = true)
    (hnodup : tss.Nodup)
    (hlen : 5 < tss.length) :
    (∀ ts ∈ tss,
      (autoName ts ∈ manage_auto_saves autoPre files
        ↔ 5 ≤ countMoreRecent tss ts))
    ∧ (manage_auto_saves autoPre files).length = tss.length - 5
    ∧ (∀ f ∈ files, isAutoSaveFile autoPre f = false
        → f ∉ manage_auto_saves autoPre files)
    ∧ (∀ x : Str, isAutoSaveFile autoPre (manualPre ++ x) = false)
    ∧ isAutoSaveFile autoPre (autoPre ++ latestJsonGzSuf) = false := by
  haveI : IsTotal Str keyLE := ⟨keyLE_total⟩
  haveI : IsTrans Str keyLE := ⟨keyLE_trans⟩
  have hmas : manage_auto_saves autoPre files
      = (List.insertionSort keyLE (tss.map autoName)).take
          ((List.insertionSort keyLE (tss.map autoName)).length - 5) := by
    unfold manage_auto_saves
    dsimp only
    rw [hfilter]
    rw [if_pos (show (tss.map autoName).length > 5 from by
      rw [List.length_map]; exact hlen)]
  have hperm : (List.insertionSort keyLE (tss.map autoName)).Perm (tss.map autoName) :=
    List.perm_insertionSort _ _
  have hsorted : List.Sorted keyLE (List.insertionSort keyLE (tss.map autoName)) :=
    List.sorted_insertionSort _ _
  have hnodmap : (tss.map autoName).Nodup := by
    refine List.Nodup.map_on ?_ hnodup
    intro a ha b hb he
    by_contra hne
    exact autoName_ne a b (validTS_length a (hvalid a ha))
      (validTS_length b (hvalid b hb)) hne he
  have hnods : (List.insertionSort keyLE (tss.map autoName)).Nodup :=
    (hperm.nodup_iff).mpr hnodmap
  have hmem_char : ∀ x ∈ List.insertionSort keyLE (tss.map autoName),
      ∃ t ∈ tss, x = autoName t := by
    intro x hxs
    have hx2 : x ∈ tss.map autoName := hperm.mem_iff.mp hxs
    rcases List.mem_map.mp hx2 with ⟨t, ht, he⟩
    exact ⟨t, ht, he.symm⟩
  have hkey : ∀ x ∈ List.insertionSort keyLE (tss.map autoName),
      get_file_timestamp x = x := by
    intro x hxs
    rcases hmem_char x hxs with ⟨t, ht, rfl⟩
    exact get_file_timestamp_autoName t (hvalid t ht)
  have hpair : (List.insertionSort keyLE (tss.map autoName)).Pairwise
      (fun x y => lexLt x y = true) := by
    have hsp : (List.insertionSort keyLE (tss.map autoName)).Pairwise keyLE := hsorted
    have hne : (List.insertionSort keyLE (tss.map autoName)).Pairwise
        (fun x y => x ≠ y) := hnods
    refine (hsp.and hne).imp_of_mem ?_
    intro a b ha hb hab
    obtain ⟨hle, hne2⟩ := hab
    unfold keyLE at hle
    rw [hkey a ha, hkey b hb] at hle
    rcases lexLt_connex a b hne2 with h | h
    · exact h
    · rw [h] at hle
      exact absurd hle (by decide)
  have hcount : ∀ t ∈ tss,
      ((List.insertionSort keyLE (tss.map autoName)).filter
        (fun y => lexLt (autoName t) y)).length = countMoreRecent tss t := by
    intro t ht
    have hpf := hperm.filter (fun y => lexLt (autoName t) y)
    rw [hpf.length_eq]
    rw [List.filter_map, List.length_map]
    unfold countMoreRecent
    congr 1
    apply List.filter_congr
    intro a ha
    show lexLt (autoName t) (autoName a) = lexLt t a
    exact lexLt_autoName t a (validTS_length t (hvalid t ht))
      (validTS_length a (hvalid a ha))
  have hsl : (List.insertionSort keyLE (tss.map autoName)).length = tss.length := by
    rw [hperm.length_eq, List.length_map]
  refine ⟨?_, ?_, ?_, ?_, ?_⟩
  · intro t ht
    rw [hmas]
    have hx : autoName t ∈ List.insertionSort keyLE (tss.map autoName) :=
      hperm.mem_iff.mpr (List.mem_map.mpr ⟨t, ht, rfl⟩)
    have hmt := mem_take_iff_count lexLt lexLt_irrefl lexLt_asymm _ hpair 5
      (autoName t) hx
    rw [hcount t ht] at hmt
    exact hmt
  · rw [hmas, List.length_take, hsl]
    exact Nat.min_eq_left (Nat.sub_le _ _)
  · intro f hf hnot
    rw [hmas]
    intro hmem
    have h1 : f ∈ List.insertionSort keyLE (tss.map autoName) :=
      List.mem_of_mem_take hmem
    have h2 : f ∈ tss.map autoName := hperm.mem_iff.mp h1
    rw [← hfilter] at h2
    have h3 := (List.mem_filter.mp h2).2
    rw [hnot] at h3
    exact absurd h3 (by decide)
  · intro x
    have hh : pyStarts autoPre (manualPre ++ x) = false :=
      pyStarts_head_ne 'a' 'm' ['u', 't', 'o', 's', 'a', 'v', 'e']
        (['a', 'n', 'u', 'a', 'l', '_'] ++ x) (by decide)
    unfold isAutoSaveFile
    rw [hh]
    simp
  · decide

/-- C9 witness: on a concrete directory of six autosave records plus a
manual save and the latest pointer, retention deletes exactly the one
record with 5 more recent siblings and spares everything else. -/
theorem c9_retention_witness :
    (∀ ts ∈ wTss,
      (autoName ts ∈ manage_auto_saves autoPre wFiles
        ↔ 5 ≤ countMoreRecent wTss ts))
    ∧ (manage_auto_saves autoPre wFiles).length = wTss.length - 5
    ∧ (∀ f ∈ wFiles, isAutoSaveFile autoPre f = false
        → f ∉ manage_auto_saves autoPre wFiles)
    ∧ (∀ x : Str, isAutoSaveFile autoPre (manualPre ++ x) = false)
    ∧ isAutoSaveFile autoPre (autoPre ++ latestJsonGzSuf) = false :=
  c9_retention wFiles wTss (by decide) (by decide) (by decide) (by decide)
